import Mathlib

/-!
# Verification of the transcript acquisition and cleaning pipeline

A shallow embedding of the pipeline from `src/server/utils/youtube.ts`
(`cleanTranscript`, `extractVideoId`, `getTranscript`, `parseVTTContent`)
and `src/utils/constants.ts` (`YOUTUBE_URL_PATTERNS`).

Strings are modelled as `List Char` with `String` wrappers at the interface.
JavaScript regular-expression operations are embedded as dedicated scanning
functions with the same leftmost-match, non-overlapping global-replace
semantics as the concrete patterns appearing in the source.  The JS `\s`
class is modelled by `isWS` (ASCII whitespace plus NBSP), `toLowerCase` by
`Char.toLower`; this is exact on the ASCII texts the theorems evaluate.
-/

namespace YT

/-- JS `\s` whitespace class (restricted to the characters relevant here). -/
def isWS (c : Char) : Bool :=
  c == ' ' || c == '\t' || c == '\n' || c == '\r' || c == '\x0b' || c == '\x0c' || c == ' '

/-- Sentence-ending punctuation class `[.!?]`. -/
def isPunct (c : Char) : Bool :=
  c == '.' || c == '!' || c == '?'

/-- Embeds `str.replace(/\s+/g, " ")`: every maximal whitespace run becomes one space.
The flag records whether the previous character was whitespace. -/
def normWSgo : Bool → List Char → List Char
  | _, [] => []
  | prev, c :: t =>
    if isWS c then
      (if prev then normWSgo true t else ' ' :: normWSgo true t)
    else c :: normWSgo false t

def normWS (l : List Char) : List Char := normWSgo false l

/-- Embeds `str.replace(/\n+/g, " ")` (second normalisation in `cleanTranscript` step 1). -/
def normNLgo : Bool → List Char → List Char
  | _, [] => []
  | prev, c :: t =>
    if c = '\n' then
      (if prev then normNLgo true t else ' ' :: normNLgo true t)
    else c :: normNLgo false t

def normNL (l : List Char) : List Char := normNLgo false l

/-- Embeds `str.trim()`. -/
def trimC (l : List Char) : List Char :=
  ((l.dropWhile (fun c => isWS c)).reverse.dropWhile (fun c => isWS c)).reverse

/-- Fuelled worker for `splitRuns`; the fuel makes the function structurally
recursive, so it reduces definitionally.  With fuel above the input length
the fuel-exhaustion branch is never taken. -/
def splitRunsF (p : Char → Bool) : Nat → List Char → List (List Char)
  | 0, _ => [[]]
  | _ + 1, [] => [[]]
  | fuel + 1, c :: t =>
    if p c then [] :: splitRunsF p fuel (t.dropWhile p)
    else
      match splitRunsF p fuel t with
      | [] => [[c]]
      | piece :: rest => (c :: piece) :: rest

/-- Split on maximal runs of characters satisfying `p`, keeping empty boundary
pieces: the semantics of JS `str.split(/[X]+/)`.  `splitRuns p [] = [[]]`
just as `"".split(re)` is `[""]`. -/
def splitRuns (p : Char → Bool) (l : List Char) : List (List Char) :=
  splitRunsF p (l.length + 1) l

/-- Split on a single character, keeping empties: JS `str.split("\n")`. -/
def splitChar (sep : Char) : List Char → List (List Char)
  | [] => [[]]
  | c :: t =>
    if c = sep then [] :: splitChar sep t
    else
      match splitChar sep t with
      | [] => [[c]]
      | piece :: rest => (c :: piece) :: rest

/-- JS `Array.prototype.join(sep)`. -/
def joinSep (sep : List Char) : List (List Char) → List Char
  | [] => []
  | [x] => x
  | x :: y :: rest => x ++ sep ++ joinSep sep (y :: rest)

def toLowerL (l : List Char) : List Char := l.map Char.toLower

/-! ### Generic global-replace driver

JS `str.replace(re, rep)` with the `g` flag scans left to right, replaces
each non-overlapping leftmost match and continues after the matched region
without rescanning the replacement.  `scanGo` is that driver, fuelled so it
is structurally recursive and reduces definitionally; a matcher `m` returns
the replacement text and the rest of the input after the match. -/
def scanGo (m : List Char → Option (List Char × List Char)) :
    Nat → List Char → List Char
  | 0, _ => []
  | _ + 1, [] => []
  | fuel + 1, c :: t =>
    match m (c :: t) with
    | some (out, rest) => out ++ scanGo m fuel rest
    | none => c :: scanGo m fuel t

def scanRepl (m : List Char → Option (List Char × List Char))
    (l : List Char) : List Char :=
  scanGo m (l.length + 1) l

/-- A matcher is consuming when every match eats at least one character. -/
def Consuming (m : List Char → Option (List Char × List Char)) : Prop :=
  ∀ l out rest, m l = some (out, rest) → rest.length < l.length

/-! ## `cleanTranscript` (youtube.ts lines 31-112) -/
/-- Step 2 of `cleanTranscript`: the first-occurrence filter over sentences,
keyed by the trimmed, lower-cased sentence (`seenSentences` is the JS `Set`).
The kept value is the trimmed sentence with its original casing. -/
def dedupSentsGo (seen : List (List Char)) : List (List Char) → List (List Char)
  | [] => []
  | s :: t =>
    let norm := toLowerL (trimC s)
    if norm ≠ [] ∧ norm ∉ seen then trimC s :: dedupSentsGo (norm :: seen) t
    else dedupSentsGo seen t

/-- `cleaned.split(/[.!?]+/).filter(s => s.trim())`. -/
def sentencesOf (l : List Char) : List (List Char) :=
  (splitRuns isPunct l).filter (fun s => trimC s ≠ [])

/-- Steps 1-3 prefix: normalised text split into deduplicated sentences,
rejoined with `". "` (`uniqueSentences.join(". ")`). -/
def stepA (l : List Char) : List Char :=
  joinSep ['.', ' '] (dedupSentsGo [] (sentencesOf (trimC (normNL (normWS l)))))

/-- The case-normalised n-gram starting at word index `i`:
`words.slice(i, i + n).join(" ").toLowerCase()`. -/
def gramAt (words : List (List Char)) (n i : Nat) : List Char :=
  toLowerL (joinSep [' '] ((words.drop i).take n))

/-- The `seen`-scan of `removeRepeatedNGrams`: walks the n-gram occurrence list
(`nGramPositions`) in order; an occurrence of a window whose total count
(`nGrams.get`) exceeds 1 and that was seen before contributes its word
positions `start, ..., start+n-1` to the removal set. -/
def ngScan (n : Nat) (all : List (List Char)) :
    Nat → List (List Char) → List (List Char) → List Nat
  | _, _, [] => []
  | j, seen, g :: rest =>
    if all.count g > 1 then
      if g ∈ seen then ((List.range n).map (j + ·)) ++ ngScan n all (j + 1) seen rest
      else ngScan n all (j + 1) (g :: seen) rest
    else ngScan n all (j + 1) seen rest

/-- `removeRepeatedNGrams(text, n)`. -/
def removeNG (n : Nat) (text : List Char) : List Char :=
  let words := splitRuns isWS text
  let grams := (List.range (words.length + 1 - n)).map (gramAt words n)
  let toRemove := ngScan n grams 0 [] grams
  joinSep [' '] ((words.enum.filter (fun p => p.1 ∉ toRemove)).map Prod.snd)

/-- The n-gram loop `for (let n = 5; n >= 2; n--)`. -/
def ngramStage (l : List Char) : List Char :=
  removeNG 2 (removeNG 3 (removeNG 4 (removeNG 5 l)))

/-- Consume a literal `.`; part of the `/\s*\.\s*\./` matcher. -/
def afterDot : List Char → Option (List Char)
  | [] => none
  | c :: t => if c = '.' then some t else none

/-- Deterministic matcher for `/\s*\.\s*\./`: a maximal whitespace run must be
followed by `.`, then again.  Returns the rest of the input after the match. -/
def matchDD (l : List Char) : Option (List Char) :=
  (afterDot (l.dropWhile (fun c => isWS c))).bind
    (fun r1 => afterDot (r1.dropWhile (fun c => isWS c)))

def mDD (l : List Char) : Option (List Char × List Char) :=
  (matchDD l).map (fun r => (['.'], r))

/-- Global replace `result.replace(/\s*\.\s*\./g, ".")`. -/
def fixDD : List Char → List Char := scanRepl mDD

/-- Consume one `[.!?]` character, returning it and the rest. -/
def takePunct : List Char → Option (Char × List Char)
  | [] => none
  | c :: t => if isPunct c then some (c, t) else none

/-- Deterministic matcher for `/\s*([.!?])\s*/`: returns the captured
punctuation character and the rest after the (greedy) match. -/
def matchPS (l : List Char) : Option (Char × List Char) :=
  (takePunct (l.dropWhile (fun c => isWS c))).map
    (fun pr => (pr.1, pr.2.dropWhile (fun c => isWS c)))

def mPS (l : List Char) : Option (List Char × List Char) :=
  (matchPS l).map (fun pr => ([pr.1, ' '], pr.2))

/-- Global replace `result.replace(/\s*([.!?])\s*/g, "$1 ")`. -/
def fixPS : List Char → List Char := scanRepl mPS

/-- Step 4 of `cleanTranscript`: double-period fix, whitespace collapse,
punctuation spacing, trim. -/
def step4 (l : List Char) : List Char := trimC (fixPS (normWS (fixDD l)))

def endsPunct (l : List Char) : Bool :=
  match l.getLast? with
  | some c => isPunct c
  | none => false

/-- Step 5 of `cleanTranscript`: append `.` when the non-empty result does not
already end in `.`, `!` or `?` (`/[.!?]$/`). -/
def step5 (l : List Char) : List Char :=
  if l ≠ [] ∧ endsPunct l = false then l ++ ['.'] else l

def cleanTranscriptL (l : List Char) : List Char :=
  if trimC l = [] then []
  else step5 (step4 (ngramStage (stepA l)))

/-- `cleanTranscript` from youtube.ts. -/
def cleanTranscript (s : String) : String := ⟨cleanTranscriptL s.data⟩

/-! ## `parseVTTContent` (youtube.ts lines 218-274) -/
/-- Consume a literal `>`; part of the `/<[^>]*>/` matcher. -/
def afterGt : List Char → Option (List Char)
  | [] => none
  | c :: t => if c = '>' then some t else none

/-- Matcher for one `/<[^>]*>/` tag: a `<`, then everything up to the first
`>`, which must exist.  Returns the rest after the `>`. -/
def matchTag : List Char → Option (List Char)
  | [] => none
  | c :: t => if c = '<' then afterGt (t.dropWhile (fun c => c != '>')) else none

def mTag (l : List Char) : Option (List Char × List Char) :=
  (matchTag l).map (fun r => (([] : List Char), r))

/-- Global replace `line.replace(/<[^>]*>/g, "")`. -/
def stripTags : List Char → List Char := scanRepl mTag

/-- Matcher for a literal pattern `pat`, to be replaced by `rep`. -/
def mLit (pat rep : List Char) (l : List Char) : Option (List Char × List Char) :=
  if pat ≠ [] ∧ l.take pat.length = pat then some (rep, l.drop pat.length) else none

/-- Global replace of one literal pattern: `line.replace(/pat/g, rep)`. -/
def replAll (pat rep : List Char) : List Char → List Char :=
  scanRepl (mLit pat rep)

/-- The per-line cue-text cleaning in `parseVTTContent`: strip `<...>` tags,
then decode the six entities in source order, then trim. -/
def cleanCueLine (line : List Char) : List Char :=
  trimC
    (replAll "&nbsp;".data " ".data
      (replAll "&#39;".data "'".data
        (replAll "&quot;".data "\"".data
          (replAll "&amp;".data "&".data
            (replAll "&gt;".data ">".data
              (replAll "&lt;".data "<".data (stripTags line)))))))

/-- `/^[\w\d-]+$/` on a whole line (JS `\w` is `[A-Za-z0-9_]`). -/
def isBareIdChar (c : Char) : Bool := c.isAlphanum || c = '_' || c = '-'

def isBareId (l : List Char) : Bool := !l.isEmpty && l.all isBareIdChar

/-- JS `str.startsWith(pat)`. -/
def startsWith (pat l : List Char) : Bool := l.take pat.length == pat

/-- JS `str.includes(pat)`. -/
def hasSub (pat : List Char) : List Char → Bool
  | [] => pat.isEmpty
  | c :: t => startsWith pat (c :: t) || hasSub pat t

/-- The line loop of `parseVTTContent`, collecting cue-text fragments.
The trailing `if (line === "") inCueBlock = false` of the source is kept,
although it is unreachable: blank lines are consumed by the first `continue`. -/
def vttLoop (inCue : Bool) : List (List Char) → List (List Char)
  | [] => []
  | raw :: rest =>
    let line := trimC raw
    if startsWith "WEBVTT".data line ∨ startsWith "NOTE".data line ∨ line = [] then
      vttLoop inCue rest
    else if hasSub "-->".data line then
      vttLoop true rest
    else if !inCue && isBareId line then
      vttLoop inCue rest
    else
      let collected :=
        if inCue ∧ line ≠ [] then
          (let ct := cleanCueLine line; if ct ≠ [] then [ct] else [])
        else []
      let inCue' := if line = [] then false else inCue
      collected ++ vttLoop inCue' rest

/-- First-occurrence filter with exact (case-sensitive) equality:
`[...new Set(xs)]` keeping insertion order. -/
def dedupExactGo (seen : List (List Char)) : List (List Char) → List (List Char)
  | [] => []
  | s :: t => if s ∈ seen then dedupExactGo seen t else s :: dedupExactGo (s :: seen) t

def parseVTTL (doc : List Char) : List Char :=
  let textLines := vttLoop false (splitChar '\n' doc)
  let result := trimC (normWS (joinSep [' '] textLines))
  let sentences := (splitRuns isPunct result).filter (fun s => trimC s ≠ [])
  let uniq := dedupExactGo [] (sentences.map trimC)
  trimC (joinSep ['.', ' '] uniq) ++ (if uniq.length > 0 then ['.'] else [])

/-- `parseVTTContent` from youtube.ts. -/
def parseVTTContent (s : String) : String := ⟨parseVTTL s.data⟩

/-! ## `extractVideoId` (youtube.ts lines 114-121) and `YOUTUBE_URL_PATTERNS`
(constants.ts lines 3-6) -/
/-- The errors thrown by youtube.ts, by message.  `invalidUrl` stands for
`new YouTubeError("Invalid YouTube URL format")` and `noSubtitlesAvailable`
for `new YouTubeError("No subtitles/transcript available for this video...")`. -/
inductive YouTubeErr where
  | invalidUrl : YouTubeErr
  | noSubtitlesAvailable : YouTubeErr
deriving DecidableEq, Repr

/-- The character class `[^&\n?#]` of the capture groups. -/
def allowedIdChar (c : Char) : Bool :=
  !(c == '&' || c == '\n' || c == '?' || c == '#')

/-- The JS `.` class (no `s` flag): any character except the line
terminators LF, CR, U+2028 and U+2029. -/
def dotChar (c : Char) : Bool :=
  !(c == '\n' || c == '\r' || c == '\u2028' || c == '\u2029')

/-- Strip a literal marker from the front; `none` when `l` does not start
with `m`. -/
def stripLit : List Char → List Char → Option (List Char)
  | [], l => some l
  | _ :: _, [] => none
  | p :: ps, c :: cs => if c = p then stripLit ps cs else none

/-- Match the literal `m` followed by the capture `([^&\n?#]+)` (greedy,
at least one character) at the current position. -/
def capAfter (m : List Char) (l : List Char) : Option (List Char) :=
  (stripLit m l).bind (fun rest =>
    let cap := rest.takeWhile allowedIdChar
    if cap = [] then none else some cap)

def marker1 : List Char := "youtube.com/watch?v=".data

def marker2 : List Char := "youtu.be/".data

def marker3 : List Char := "youtube.com/embed/".data

def watchQ : List Char := "youtube.com/watch?".data

/-- One attempt of the first pattern
`/(?:youtube\.com\/watch\?v=|youtu\.be\/|youtube\.com\/embed\/)([^&\n?#]+)/`
at the current position: alternatives are tried left to right. -/
def p1At (l : List Char) : Option (List Char) :=
  match capAfter marker1 l with
  | some g => some g
  | none =>
    match capAfter marker2 l with
    | some g => some g
    | none => capAfter marker3 l

/-- Leftmost-match search of pattern 1. -/
def p1Search : List Char → Option (List Char)
  | [] => none
  | c :: t =>
    match p1At (c :: t) with
    | some g => some g
    | none => p1Search t

/-- After the literal `youtube.com/watch?`, the tail `.*v=([^&\n?#]+)` of
pattern 2: `.` does not match a line terminator (`dotChar`) and the greedy
`.*` selects the last feasible `v=`, so candidate gap lengths are tried in
decreasing order. -/
def p2After (l : List Char) : Option (List Char) :=
  let bound := (l.takeWhile (fun c => dotChar c)).length
  (List.range (bound + 1)).reverse.findSome?
    (fun q => capAfter "v=".data (l.drop q))

/-- One attempt of `/youtube\.com\/watch\?.*v=([^&\n?#]+)/` at the current
position. -/
def p2At (l : List Char) : Option (List Char) :=
  (stripLit watchQ l).bind p2After

/-- Leftmost-match search of pattern 2. -/
def p2Search : List Char → Option (List Char)
  | [] => none
  | c :: t =>
    match p2At (c :: t) with
    | some g => some g
    | none => p2Search t

/-- `extractVideoId`: `YOUTUBE_URL_PATTERNS.find(p => p.test(url))?.exec(url)`,
returning capture group 1 of the first pattern that matches, else the
`InvalidUrl` error.  The patterns carry no `g` flag, so `test`/`exec` share
no `lastIndex` state and the function is deterministic. -/
def extractVideoIdE (url : String) : Except YouTubeErr String :=
  match p1Search url.data with
  | some g => .ok ⟨g⟩
  | none =>
    match p2Search url.data with
    | some g => .ok ⟨g⟩
    | none => .error .invalidUrl

/-- Declarative semantics of pattern 1: the string contains one of the
three markers followed by at least one identifier character. -/
def P1Shape (l : List Char) : Prop :=
  ∃ pre m id post, l = pre ++ m ++ id ++ post ∧
    (m = marker1 ∨ m = marker2 ∨ m = marker3) ∧
    id ≠ [] ∧ ∀ c ∈ id, allowedIdChar c = true

/-- Pattern 1 matches at the current position. -/
def P1Here (l : List Char) : Prop :=
  ∃ m id post, l = m ++ id ++ post ∧
    (m = marker1 ∨ m = marker2 ∨ m = marker3) ∧
    id ≠ [] ∧ ∀ c ∈ id, allowedIdChar c = true

/-- Declarative semantics of pattern 2: `youtube.com/watch?`, then a gap
free of line terminators (the JS `.` class), then `v=` and at least one
identifier character. -/
def P2Shape (l : List Char) : Prop :=
  ∃ pre gap id post, l = pre ++ watchQ ++ gap ++ "v=".data ++ id ++ post ∧
    (∀ c ∈ gap, dotChar c = true) ∧ id ≠ [] ∧ ∀ c ∈ id, allowedIdChar c = true

/-- Pattern 2 matches at the current position. -/
def P2Here (l : List Char) : Prop :=
  ∃ gap id post, l = watchQ ++ gap ++ "v=".data ++ id ++ post ∧
    (∀ c ∈ gap, dotChar c = true) ∧ id ≠ [] ∧ ∀ c ∈ id, allowedIdChar c = true

/-! ## `getTranscript` (youtube.ts lines 153-216)

The external retrieval collaborator (`yt-dlp` invoked through `execAsync`)
and `readFileSync` are modelled by a `Behavior`; the scratch directory is an
explicit map from file name to contents. -/
structure SubConfig where
  lang : String
  auto : Bool
  name : String
deriving DecidableEq, Repr

/-- The candidate list of `getTranscript`, in source order. -/
def configs : List SubConfig :=
  [⟨"en", true, "English (auto)"⟩,
   ⟨"en", false, "English (manual)"⟩,
   ⟨"pl", true, "Polish (auto)"⟩,
   ⟨"pl", false, "Polish (manual)"⟩]

/-- `TranscriptData` from youtube.ts; `language` is declared optional. -/
structure TranscriptData where
  text : String
  language : Option String
deriving DecidableEq, Repr

/-- The scratch filesystem: contents by file name. -/
def FS : Type := String → Option String

def fsRemove (fs : FS) (p : String) : FS :=
  fun q => if q = p then none else fs q

def fsWrite (fs : FS) (p : String) (c : String) : FS :=
  fun q => if q = p then some c else fs q

/-- Outcome of one `yt-dlp` invocation: `ok = false` models `execAsync`
rejecting (the subprocess failed); `leaves` is the artifact content the
invocation wrote at its target path, if any (a failing invocation may or
may not have written the file first). -/
structure DlOutcome where
  ok : Bool
  leaves : Option String

/-- One behavior of the external collaborators, keyed by attempt index:
`dl i` is the outcome of the i-th download, `readOk i` whether the i-th
`readFileSync` succeeds. -/
structure Behavior where
  dl : Nat → DlOutcome
  readOk : Nat → Bool

/-- `${videoId}.${config.lang}.vtt` (the `tempDir` prefix is left implicit:
all names live in the same scratch directory). -/
def filename (videoId : String) (c : SubConfig) : String :=
  videoId ++ "." ++ c.lang ++ ".vtt"

/-- The candidate loop of `getTranscript`.  Returns the result, the final
scratch filesystem, and the list of candidates attempted, in order. -/
def runCandidates (b : Behavior) (videoId : String) :
    Nat → FS → List SubConfig → Except YouTubeErr TranscriptData × FS × List SubConfig
  | _, fs, [] => (.error .noSubtitlesAvailable, fs, [])
  | i, fs, cfg :: rest =>
    let fp := filename videoId cfg
    -- `if (existsSync(filepath)) unlinkSync(filepath)`
    let fs1 := fsRemove fs fp
    -- the yt-dlp invocation may write the artifact and may reject
    let out := b.dl i
    let fs2 := match out.leaves with
      | some c => fsWrite fs1 fp c
      | none => fs1
    if out.ok then
      match fs2 fp with
      | some content =>
        if b.readOk i then
          let parsed := parseVTTContent content
          -- `unlinkSync(filepath)` before the non-empty check
          let fs3 := fsRemove fs2 fp
          if trimC parsed.data ≠ [] then
            (.ok ⟨cleanTranscript parsed, some cfg.lang⟩, fs3, [cfg])
          else
            let r := runCandidates b videoId (i + 1) fs3 rest
            (r.1, r.2.1, cfg :: r.2.2)
        else
          -- `readFileSync` threw: catch, unlink if exists, continue
          let fs3 := fsRemove fs2 fp
          let r := runCandidates b videoId (i + 1) fs3 rest
          (r.1, r.2.1, cfg :: r.2.2)
      | none =>
        -- no artifact was produced: continue
        let r := runCandidates b videoId (i + 1) fs2 rest
        (r.1, r.2.1, cfg :: r.2.2)
    else
      -- `execAsync` rejected: outer catch logs and continues
      let r := runCandidates b videoId (i + 1) fs2 rest
      (r.1, r.2.1, cfg :: r.2.2)

/-- `getTranscript`: extract the video id, then run the candidate loop. -/
def getTranscriptM (url : String) (b : Behavior) (fs : FS) :
    Except YouTubeErr TranscriptData × FS × List SubConfig :=
  match extractVideoIdE url with
  | .error e => (.error e, fs, [])
  | .ok vid => runCandidates b vid 0 fs configs

/-- The subtitle document that attempt `i` makes readable: present exactly
when the download succeeded, wrote an artifact, and the read succeeds. -/
def docAt (b : Behavior) (i : Nat) : Option String :=
  if (b.dl i).ok = true ∧ b.readOk i = true then (b.dl i).leaves else none

/-- Attempt `i` satisfies the source's success test: its document parses to
text with non-empty trim. -/
def winsAtC (b : Behavior) (i : Nat) : Prop :=
  ∃ c, docAt b i = some c ∧ trimC (parseVTTContent c).data ≠ []

/-- Attempt `i` wins in the specification's wording: its document parses
and cleans to non-empty text. -/
def winsAt (b : Behavior) (i : Nat) : Prop :=
  ∃ c, docAt b i = some c ∧ cleanTranscript (parseVTTContent c) ≠ ""

/-- A behavior for the tests: the first two downloads fail cleanly, the
third (Polish auto) succeeds with a small document. -/
def demoDoc : String := "WEBVTT\n\n00:00 --> 00:01\nHello world\n"

def demoB : Behavior :=
  ⟨fun i => if i = 2 then ⟨true, some demoDoc⟩ else ⟨false, none⟩, fun _ => true⟩

/-- A behavior whose last download (Polish manual) fails only after having
written its artifact. -/
def leakB : Behavior :=
  ⟨fun i => if i = 3 then ⟨false, some "leftover"⟩ else ⟨false, none⟩, fun _ => true⟩

def emptyFS : FS := fun _ => none

/-! ## Spec-side comparison definitions -/
/-- First-occurrence filter keyed by the lower-cased sentence. -/
def dedupCIGo (seen : List (List Char)) : List (List Char) → List (List Char)
  | [] => []
  | s :: t =>
    if toLowerL s ∈ seen then dedupCIGo seen t
    else s :: dedupCIGo (toLowerL s :: seen) t

/-- Modelled from the spec: the final deduplication pass of `parseVTTContent`
as claim C4 words it - split on sentence-ending punctuation, keep only the
first occurrence of each case-insensitive-normalized sentence, rejoin with
`". "`, append a trailing period when content survived.  Written only to be
compared against the implemented (case-sensitive) pass. -/
def specCIFinalDedup (joined : List Char) : List Char :=
  let sentences := (splitRuns isPunct joined).filter (fun s => trimC s ≠ [])
  let uniq := dedupCIGo [] (sentences.map trimC)
  trimC (joinSep ['.', ' '] uniq) ++ (if uniq.length > 0 then ['.'] else [])

/-- Fuelled worker for `keepFirsts`. -/
def keepFirstsF : Nat → List (List Char) → List (List Char)
  | 0, _ => []
  | _ + 1, [] => []
  | fuel + 1, x :: t => x :: keepFirstsF fuel (t.filter (fun y => y ≠ x))

/-- No two adjacent whitespace characters. -/
def noDbl (a b : Char) : Prop := ¬(isWS a = true ∧ isWS b = true)

/-- A well-formed sentence as produced by the sentence-deduplication stage:
non-empty, free of sentence punctuation, all whitespace is a single plain
space, and it neither starts nor ends with whitespace. -/
structure SentG (y : List Char) : Prop where
  ne : y ≠ []
  npunct : ∀ c ∈ y, isPunct c = false
  wsSp : ∀ c ∈ y, isWS c = true → c = ' '
  chain : y.Chain' noDbl
  headOK : ∀ c, y.head? = some c → isWS c = false
  lastOK : ∀ c, y.getLast? = some c → isWS c = false

/-- Declarative first-occurrence filter: keep the head, delete every later
copy of it, recurse. -/
def keepFirsts (l : List (List Char)) : List (List Char) :=
  keepFirstsF (l.length + 1) l

theorem dropWhile_len_le {α : Type} (p : α → Bool) (l : List α) :
    (l.dropWhile p).length ≤ l.length := by
  induction l with
  | nil => simp [List.dropWhile]
  | cons c t ih =>
    simp only [List.dropWhile]
    cases p c
    · simp
    · simp; omega

theorem splitRunsF_fuel (p : Char → Bool) :
    ∀ f1 f2 l, l.length < f1 → l.length < f2 →
      splitRunsF p f1 l = splitRunsF p f2 l := by
  intro f1
  induction f1 with
  | zero => intro f2 l h1 _; omega
  | succ f ih =>
    intro f2 l h1 h2
    cases f2 with
    | zero => omega
    | succ g =>
      cases l with
      | nil => rfl
      | cons c t =>
        simp only [List.length_cons] at h1 h2
        simp only [splitRunsF]
        by_cases hp : p c = true
        · rw [if_pos hp, if_pos hp]
          have hd := dropWhile_len_le p t
          rw [ih g (t.dropWhile p) (by omega) (by omega)]
        · rw [if_neg hp, if_neg hp]
          rw [ih g t (by omega) (by omega)]

theorem splitRuns_nil (p : Char → Bool) : splitRuns p [] = [[]] := rfl

theorem splitRuns_cons_pos {p : Char → Bool} {c : Char} (t : List Char)
    (hp : p c = true) :
    splitRuns p (c :: t) = [] :: splitRuns p (t.dropWhile p) := by
  unfold splitRuns
  simp only [splitRunsF, List.length_cons, if_pos hp]
  have hd := dropWhile_len_le p t
  rw [splitRunsF_fuel p (t.length + 1) ((t.dropWhile p).length + 1) (t.dropWhile p)
    (by omega) (by omega)]

theorem splitRuns_cons_neg {p : Char → Bool} {c : Char} (t : List Char)
    (hp : p c = false) :
    splitRuns p (c :: t) =
      match splitRuns p t with
      | [] => [[c]]
      | piece :: rest => (c :: piece) :: rest := by
  unfold splitRuns
  simp only [splitRunsF, List.length_cons]
  rw [if_neg (by simp [hp])]

theorem scanGo_fuel {m : List Char → Option (List Char × List Char)}
    (hm : Consuming m) :
    ∀ f1 f2 l, l.length < f1 → l.length < f2 → scanGo m f1 l = scanGo m f2 l := by
  intro f1
  induction f1 with
  | zero => intro f2 l h1 _; omega
  | succ f ih =>
    intro f2 l h1 h2
    cases f2 with
    | zero => omega
    | succ g =>
      cases l with
      | nil => rfl
      | cons c t =>
        simp only [List.length_cons] at h1 h2
        cases hmm : m (c :: t) with
        | none =>
          simp only [scanGo, hmm]
          rw [ih g t (by omega) (by omega)]
        | some pr =>
          obtain ⟨out, rest⟩ := pr
          have hr := hm _ _ _ hmm
          simp only [List.length_cons] at hr
          simp only [scanGo, hmm]
          rw [ih g rest (by omega) (by omega)]

theorem scanRepl_cons_some {m : List Char → Option (List Char × List Char)}
    (hm : Consuming m) {c : Char} {t out rest : List Char}
    (h : m (c :: t) = some (out, rest)) :
    scanRepl m (c :: t) = out ++ scanRepl m rest := by
  have hr := hm _ _ _ h
  simp only [List.length_cons] at hr
  unfold scanRepl
  simp only [List.length_cons, scanGo, h]
  rw [scanGo_fuel hm (t.length + 1) (rest.length + 1) rest (by omega) (by omega)]

theorem scanRepl_cons_none {m : List Char → Option (List Char × List Char)}
    {c : Char} {t : List Char} (h : m (c :: t) = none) :
    scanRepl m (c :: t) = c :: scanRepl m t := by
  unfold scanRepl
  simp only [List.length_cons, scanGo, h]

theorem afterDot_len {l r : List Char} (h : afterDot l = some r) :
    r.length < l.length := by
  cases l with
  | nil => simp [afterDot] at h
  | cons c t =>
    simp only [afterDot] at h
    split at h
    · injection h with h'; subst h'; simp
    · simp at h

theorem matchDD_len {l r : List Char} (h : matchDD l = some r) :
    r.length < l.length := by
  unfold matchDD at h
  rw [Option.bind_eq_some] at h
  obtain ⟨r1, h1, h2⟩ := h
  have a1 := afterDot_len h1
  have a2 := afterDot_len h2
  have d1 := dropWhile_len_le (fun c => isWS c) l
  have d2 := dropWhile_len_le (fun c => isWS c) r1
  omega

theorem mDD_consuming : Consuming mDD := by
  intro l out rest h
  unfold mDD at h
  rw [Option.map_eq_some'] at h
  obtain ⟨r, h1, h2⟩ := h
  have : r = rest := congrArg Prod.snd h2
  subst this
  exact matchDD_len h1

theorem takePunct_len {l : List Char} {p : Char} {r : List Char}
    (h : takePunct l = some (p, r)) : r.length < l.length := by
  cases l with
  | nil => simp [takePunct] at h
  | cons c t =>
    simp only [takePunct] at h
    split at h
    · injection h with h'
      have : t = r := congrArg Prod.snd h'
      subst this; simp
    · simp at h

theorem matchPS_len {l : List Char} {p : Char} {r : List Char}
    (h : matchPS l = some (p, r)) : r.length < l.length := by
  unfold matchPS at h
  rw [Option.map_eq_some'] at h
  obtain ⟨⟨p', r1⟩, h1, h2⟩ := h
  have a1 := takePunct_len h1
  have d1 := dropWhile_len_le (fun c => isWS c) l
  have d2 := dropWhile_len_le (fun c => isWS c) r1
  have : r = r1.dropWhile (fun c => isWS c) := (congrArg Prod.snd h2).symm
  subst this
  omega

theorem mPS_consuming : Consuming mPS := by
  intro l out rest h
  unfold mPS at h
  rw [Option.map_eq_some'] at h
  obtain ⟨⟨p, r⟩, h1, h2⟩ := h
  have : r = rest := congrArg Prod.snd h2
  subst this
  exact matchPS_len h1

theorem afterGt_len {l r : List Char} (h : afterGt l = some r) :
    r.length < l.length := by
  cases l with
  | nil => simp [afterGt] at h
  | cons c t =>
    simp only [afterGt] at h
    split at h
    · injection h with h'; subst h'; simp
    · simp at h

theorem matchTag_len {l r : List Char} (h : matchTag l = some r) :
    r.length < l.length := by
  cases l with
  | nil => simp [matchTag] at h
  | cons c t =>
    simp only [matchTag] at h
    split at h
    · have d := dropWhile_len_le (fun c => c != '>') t
      have a := afterGt_len h
      simp only [List.length_cons]
      omega
    · simp at h

theorem mTag_consuming : Consuming mTag := by
  intro l out rest h
  unfold mTag at h
  rw [Option.map_eq_some'] at h
  obtain ⟨r, h1, h2⟩ := h
  have : r = rest := congrArg Prod.snd h2
  subst this
  exact matchTag_len h1

theorem mLit_consuming (pat rep : List Char) : Consuming (mLit pat rep) := by
  intro l out rest h
  unfold mLit at h
  split at h
  · rename_i hc
    obtain ⟨hne, htake⟩ := hc
    have hlen : (l.take pat.length).length = pat.length := by rw [htake]
    rw [List.length_take] at hlen
    have hge : pat.length ≤ l.length := by omega
    have hpos : 0 < pat.length := List.length_pos.mpr hne
    rw [Option.some.injEq] at h
    have : rest = l.drop pat.length := (congrArg Prod.snd h).symm
    subst this
    rw [List.length_drop]
    omega
  · simp at h

theorem fsRemove_self (fs : FS) (p : String) : fsRemove fs p p = none := by
  simp [fsRemove]

theorem fsRemove_other (fs : FS) (p q : String) (h : q ≠ p) :
    fsRemove fs p q = fs q := by
  simp [fsRemove, h]

theorem fsWrite_self (fs : FS) (p : String) (c : String) :
    fsWrite fs p c p = some c := by
  simp [fsWrite]

theorem fsWrite_other (fs : FS) (p : String) (c : String) (q : String) (h : q ≠ p) :
    fsWrite fs p c q = fs q := by
  simp [fsWrite, h]

/-- One iteration of the candidate loop: either the candidate wins and the
loop returns at once with the cleaned text, that candidate's language, a
singleton trace and its artifact deleted; or it does not win and the loop
continues on the rest with some intermediate filesystem that agrees with
the input off the candidate's file name and holds, at it, the artifact of a
failed download (nothing when the download succeeded). -/
theorem runCandidates_step (b : Behavior) (vid : String) (i : Nat) (fs : FS)
    (cfg : SubConfig) (rest : List SubConfig) :
    (∃ c fsS, docAt b i = some c ∧ trimC (parseVTTContent c).data ≠ [] ∧
      runCandidates b vid i fs (cfg :: rest) =
        (.ok ⟨cleanTranscript (parseVTTContent c), some cfg.lang⟩, fsS, [cfg]) ∧
      (∀ q, q ≠ filename vid cfg → fsS q = fs q) ∧
      fsS (filename vid cfg) = none) ∨
    (¬ winsAtC b i ∧ ∃ fs' : FS,
      runCandidates b vid i fs (cfg :: rest) =
        ((runCandidates b vid (i + 1) fs' rest).1,
         (runCandidates b vid (i + 1) fs' rest).2.1,
         cfg :: (runCandidates b vid (i + 1) fs' rest).2.2) ∧
      (∀ q, q ≠ filename vid cfg → fs' q = fs q) ∧
      fs' (filename vid cfg) =
        (if (b.dl i).ok = true then none else (b.dl i).leaves)) := by
  by_cases hok : (b.dl i).ok = true
  · cases hl : (b.dl i).leaves with
    | none =>
      right
      refine ⟨?_, fsRemove fs (filename vid cfg), ?_, ?_, ?_⟩
      · rintro ⟨c, hdoc, _⟩
        unfold docAt at hdoc
        split at hdoc
        · rw [hl] at hdoc; exact Option.noConfusion hdoc
        · exact Option.noConfusion hdoc
      · simp only [runCandidates, hl, hok, if_true, fsRemove_self]
      · intro q hq; exact fsRemove_other fs _ q hq
      · rw [if_pos hok]; exact fsRemove_self fs _
    | some c =>
      by_cases hr : b.readOk i = true
      · by_cases hp : trimC (parseVTTContent c).data ≠ []
        · left
          refine ⟨c, fsRemove (fsWrite (fsRemove fs (filename vid cfg))
              (filename vid cfg) c) (filename vid cfg), ?_, hp, ?_, ?_, ?_⟩
          · unfold docAt
            rw [if_pos ⟨hok, hr⟩, hl]
          · simp only [runCandidates, hl, hok, if_true, fsWrite_self, hr]
            rw [if_pos hp]
          · intro q hq
            rw [fsRemove_other _ _ q hq, fsWrite_other _ _ _ q hq,
              fsRemove_other _ _ q hq]
          · exact fsRemove_self _ _
        · right
          refine ⟨?_, fsRemove (fsWrite (fsRemove fs (filename vid cfg))
              (filename vid cfg) c) (filename vid cfg), ?_, ?_, ?_⟩
          · rintro ⟨c', hdoc, hne⟩
            unfold docAt at hdoc
            rw [if_pos ⟨hok, hr⟩, hl] at hdoc
            injection hdoc with hdoc
            exact hp (hdoc ▸ hne)
          · simp only [runCandidates, hl, hok, if_true, fsWrite_self, hr]
            rw [if_neg hp]
          · intro q hq
            rw [fsRemove_other _ _ q hq, fsWrite_other _ _ _ q hq,
              fsRemove_other _ _ q hq]
          · rw [if_pos hok]; exact fsRemove_self _ _
      · right
        refine ⟨?_, fsRemove (fsWrite (fsRemove fs (filename vid cfg))
            (filename vid cfg) c) (filename vid cfg), ?_, ?_, ?_⟩
        · rintro ⟨c', hdoc, _⟩
          unfold docAt at hdoc
          rw [if_neg (fun hand => hr hand.2)] at hdoc
          exact Option.noConfusion hdoc
        · have hrf : b.readOk i = false := by
            cases hb : b.readOk i
            · rfl
            · exact absurd hb hr
          simp only [runCandidates, hl, hok, if_true, fsWrite_self, hrf]
          rw [if_neg (fun h => Bool.false_ne_true h)]
        · intro q hq
          rw [fsRemove_other _ _ q hq, fsWrite_other _ _ _ q hq,
            fsRemove_other _ _ q hq]
        · rw [if_pos hok]; exact fsRemove_self _ _
  · right
    have hof : (b.dl i).ok = false := by
      cases hb : (b.dl i).ok
      · rfl
      · exact absurd hb hok
    refine ⟨?_, (match (b.dl i).leaves with
        | some c => fsWrite (fsRemove fs (filename vid cfg)) (filename vid cfg) c
        | none => fsRemove fs (filename vid cfg)), ?_, ?_, ?_⟩
    · rintro ⟨c, hdoc, _⟩
      unfold docAt at hdoc
      rw [if_neg (fun hand => hok hand.1)] at hdoc
      exact Option.noConfusion hdoc
    · simp only [runCandidates, hof]
      rw [if_neg (fun h => Bool.false_ne_true h)]
    · intro q hq
      cases (b.dl i).leaves with
      | none => exact fsRemove_other fs _ q hq
      | some c =>
        show fsWrite (fsRemove fs (filename vid cfg)) (filename vid cfg) c q = fs q
        rw [fsWrite_other _ _ _ q hq, fsRemove_other _ _ q hq]
    · rw [if_neg hok]
      cases hl : (b.dl i).leaves with
      | none => exact fsRemove_self fs _
      | some c =>
        show fsWrite (fsRemove fs (filename vid cfg)) (filename vid cfg) c
          (filename vid cfg) = some c
        exact fsWrite_self _ _ _

/-- The loop returns the first winning candidate's cleaned text and
language, attempting exactly the candidates up to and including it. -/
theorem runCandidates_success (b : Behavior) (vid : String) :
    ∀ (cfgs : List SubConfig) (i0 : Nat) (fs : FS) (k : Nat) (c : String)
      (hk : k < cfgs.length),
      docAt b (i0 + k) = some c →
      trimC (parseVTTContent c).data ≠ [] →
      (∀ j, j < k → ¬ winsAtC b (i0 + j)) →
      (runCandidates b vid i0 fs cfgs).1 =
          .ok ⟨cleanTranscript (parseVTTContent c), some (cfgs.get ⟨k, hk⟩).lang⟩ ∧
      (runCandidates b vid i0 fs cfgs).2.2 = cfgs.take (k + 1) := by
  intro cfgs
  induction cfgs with
  | nil => intro i0 fs k c hk; simp at hk
  | cons cfg rest ih =>
    intro i0 fs k c hk hdoc hne hprev
    rcases runCandidates_step b vid i0 fs cfg rest with
      ⟨c', fsS, hdoc', hne', hrun, _, _⟩ | ⟨hnw, fs', hrun, _, _⟩
    · cases k with
      | zero =>
        rw [Nat.add_zero] at hdoc
        rw [hdoc] at hdoc'
        injection hdoc' with hcc
        subst hcc
        rw [hrun]
        exact ⟨rfl, rfl⟩
      | succ k' =>
        have hw : winsAtC b i0 := ⟨c', hdoc', hne'⟩
        exact absurd hw (by simpa using hprev 0 (by omega))
    · cases k with
      | zero =>
        rw [Nat.add_zero] at hdoc
        exact absurd ⟨c, hdoc, hne⟩ hnw
      | succ k' =>
        have hk' : k' < rest.length := by simpa using hk
        have hih := ih (i0 + 1) fs' k' c hk'
          (by rw [show i0 + 1 + k' = i0 + (k' + 1) by omega]; exact hdoc)
          hne
          (fun j hj => by
            rw [show i0 + 1 + j = i0 + (j + 1) by omega]
            exact hprev (j + 1) (by omega))
        rw [hrun]
        exact ⟨hih.1, by rw [List.take_succ_cons, hih.2]⟩

/-- When no candidate wins, the loop raises `noSubtitlesAvailable` after
attempting every candidate. -/
theorem runCandidates_exhaust (b : Behavior) (vid : String) :
    ∀ (cfgs : List SubConfig) (i0 : Nat) (fs : FS),
      (∀ j, j < cfgs.length → ¬ winsAtC b (i0 + j)) →
      (runCandidates b vid i0 fs cfgs).1 = .error .noSubtitlesAvailable ∧
      (runCandidates b vid i0 fs cfgs).2.2 = cfgs := by
  intro cfgs
  induction cfgs with
  | nil => intro i0 fs _; exact ⟨rfl, rfl⟩
  | cons cfg rest ih =>
    intro i0 fs hall
    rcases runCandidates_step b vid i0 fs cfg rest with
      ⟨c', fsS, hdoc', hne', hrun, _, _⟩ | ⟨hnw, fs', hrun, _, _⟩
    · have hw : winsAtC b i0 := ⟨c', hdoc', hne'⟩
      exact absurd hw (by simpa using hall 0 (by simp))
    · have hih := ih (i0 + 1) fs' (fun j hj => by
        rw [show i0 + 1 + j = i0 + (j + 1) by omega]
        exact hall (j + 1) (by simpa using Nat.succ_lt_succ hj))
      rw [hrun]
      exact ⟨hih.1, by rw [hih.2]⟩

/-- A successful loop result carries the language of one of the candidates. -/
theorem runCandidates_ok_lang (b : Behavior) (vid : String) :
    ∀ (cfgs : List SubConfig) (i0 : Nat) (fs : FS) (td : TranscriptData),
      (runCandidates b vid i0 fs cfgs).1 = .ok td →
      ∃ cfg, cfg ∈ cfgs ∧ td.language = some cfg.lang := by
  intro cfgs
  induction cfgs with
  | nil => intro i0 fs td h; exact Except.noConfusion h
  | cons cfg rest ih =>
    intro i0 fs td h
    rcases runCandidates_step b vid i0 fs cfg rest with
      ⟨c', fsS, _, _, hrun, _, _⟩ | ⟨_, fs', hrun, _, _⟩
    · rw [hrun] at h
      injection h with h
      exact ⟨cfg, List.mem_cons_self _ _, by rw [← h]⟩
    · rw [hrun] at h
      obtain ⟨cfg', hmem, hlang⟩ := ih (i0 + 1) fs' td h
      exact ⟨cfg', List.mem_cons_of_mem _ hmem, hlang⟩

/-- The loop leaves the filesystem unchanged at names other than those of
the attempted candidates. -/
theorem runCandidates_frame (b : Behavior) (vid : String) :
    ∀ (cfgs : List SubConfig) (i0 : Nat) (fs : FS) (q : String),
      (∀ cfg, cfg ∈ (runCandidates b vid i0 fs cfgs).2.2 →
        q ≠ filename vid cfg) →
      (runCandidates b vid i0 fs cfgs).2.1 q = fs q := by
  intro cfgs
  induction cfgs with
  | nil => intro i0 fs q _; rfl
  | cons cfg rest ih =>
    intro i0 fs q hq
    rcases runCandidates_step b vid i0 fs cfg rest with
      ⟨c', fsS, _, _, hrun, hoff, _⟩ | ⟨_, fs', hrun, hoff, _⟩
    · rw [hrun] at hq ⊢
      exact hoff q (hq cfg (List.mem_cons_self _ _))
    · rw [hrun] at hq ⊢
      have h1 : (runCandidates b vid (i0 + 1) fs' rest).2.1 q = fs' q := by
        exact ih (i0 + 1) fs' q (fun cfg' hmem => hq cfg' (List.mem_cons_of_mem _ hmem))
      rw [h1]
      exact hoff q (hq cfg (List.mem_cons_self _ _))

/-- Guaranteed cleanup, provided a failing download writes nothing: after
the loop, the artifact of every attempted candidate is absent. -/
theorem runCandidates_cleanup (b : Behavior) (vid : String)
    (hb : ∀ i, (b.dl i).ok = false → (b.dl i).leaves = none) :
    ∀ (cfgs : List SubConfig) (i0 : Nat) (fs : FS) (cfg : SubConfig),
      cfg ∈ (runCandidates b vid i0 fs cfgs).2.2 →
      (runCandidates b vid i0 fs cfgs).2.1 (filename vid cfg) = none := by
  intro cfgs
  induction cfgs with
  | nil => intro i0 fs cfg h; exact absurd h (List.not_mem_nil _)
  | cons cfg0 rest ih =>
    intro i0 fs cfg hmem
    rcases runCandidates_step b vid i0 fs cfg0 rest with
      ⟨c', fsS, _, _, hrun, _, hat⟩ | ⟨_, fs', hrun, hoff, hat⟩
    · rw [hrun] at hmem ⊢
      rcases List.mem_singleton.mp hmem with rfl
      exact hat
    · rw [hrun] at hmem ⊢
      have hat' : fs' (filename vid cfg0) = none := by
        rw [hat]
        by_cases hok : (b.dl i0).ok = true
        · rw [if_pos hok]
        · rw [if_neg hok]
          apply hb
          cases hb2 : (b.dl i0).ok
          · rfl
          · exact absurd hb2 hok
      rcases List.mem_cons.mp hmem with rfl | hmem'
      · by_cases hin : ∃ cfg', cfg' ∈ (runCandidates b vid (i0 + 1) fs' rest).2.2 ∧
            filename vid cfg' = filename vid cfg
        · obtain ⟨cfg', hmem', heq⟩ := hin
          rw [← heq]
          exact ih (i0 + 1) fs' cfg' hmem'
        · push_neg at hin
          rw [runCandidates_frame b vid rest (i0 + 1) fs' (filename vid cfg)
            (fun cfg' hmem' => fun heq2 => (hin cfg' hmem') heq2.symm)]
          exact hat'
      · exact ih (i0 + 1) fs' cfg hmem'

theorem keepFirstsF_fuel :
    ∀ f1 f2 (l : List (List Char)), l.length < f1 → l.length < f2 →
      keepFirstsF f1 l = keepFirstsF f2 l := by
  intro f1
  induction f1 with
  | zero => intro f2 l h1 _; omega
  | succ f ih =>
    intro f2 l h1 h2
    cases f2 with
    | zero => omega
    | succ g =>
      cases l with
      | nil => rfl
      | cons x t =>
        simp only [List.length_cons] at h1 h2
        simp only [keepFirstsF]
        have hf := List.length_filter_le (fun y => y ≠ x) t
        rw [ih g (t.filter (fun y => y ≠ x)) (by omega) (by omega)]

theorem keepFirsts_cons (x : List Char) (t : List (List Char)) :
    keepFirsts (x :: t) = x :: keepFirsts (t.filter (fun y => y ≠ x)) := by
  unfold keepFirsts
  simp only [List.length_cons, keepFirstsF]
  have hf := List.length_filter_le (fun y => y ≠ x) t
  rw [keepFirstsF_fuel (t.length + 1) ((t.filter (fun y => y ≠ x)).length + 1)
    (t.filter (fun y => y ≠ x)) (by omega) (by omega)]

/-! ## Basic lemmas -/
theorem mk_eq_empty_iff (l : List Char) : (⟨l⟩ : String) = "" ↔ l = [] := by
  rw [String.ext_iff]

theorem trimC_of_all_ws {l : List Char} (h : ∀ c ∈ l, isWS c = true) :
    trimC l = [] := by
  unfold trimC
  have h1 : l.dropWhile (fun c => isWS c) = [] := by
    rw [List.dropWhile_eq_nil_iff]
    exact h
  rw [h1]
  simp

theorem mem_rangeBlock (n j i : Nat) :
    i ∈ (List.range n).map (j + ·) ↔ j ≤ i ∧ i < j + n := by
  simp only [List.mem_map, List.mem_range]
  constructor
  · rintro ⟨k, hk, rfl⟩; omega
  · rintro ⟨h1, h2⟩; exact ⟨i - j, by omega, by omega⟩

theorem exists_lt_succ_iff {m : Nat} {P : Nat → Prop} :
    (∃ t, t < m + 1 ∧ P t) ↔ P 0 ∨ ∃ t, t < m ∧ P (t + 1) := by
  constructor
  · rintro ⟨t, ht, hp⟩
    cases t with
    | zero => exact Or.inl hp
    | succ t' => exact Or.inr ⟨t', by omega, hp⟩
  · rintro (hp | ⟨t, ht, hp⟩)
    · exact ⟨0, by omega, hp⟩
    · exact ⟨t + 1, by omega, hp⟩

/-- Characterisation of the removal set built by `ngScan`: word position `i`
is marked exactly when some occurrence `t` of a window that also occurs
earlier (at `u < t`, or in `seen`) covers it, provided the window's total
count exceeds one. -/
theorem ngScan_mem (n : Nat) (all : List (List Char)) :
    ∀ (gs : List (List Char)) (j : Nat) (seen : List (List Char)) (i : Nat),
      i ∈ ngScan n all j seen gs ↔
        ∃ t, t < gs.length ∧ 1 < all.count (gs.getD t []) ∧
          (gs.getD t [] ∈ seen ∨ ∃ u, u < t ∧ gs.getD u [] = gs.getD t []) ∧
          j + t ≤ i ∧ i < j + t + n := by
  intro gs
  induction gs with
  | nil => intro j seen i; simp [ngScan]
  | cons g rest ih =>
    intro j seen i
    simp only [ngScan, List.length_cons]
    rw [exists_lt_succ_iff]
    by_cases h1 : all.count g > 1
    · by_cases h2 : g ∈ seen
      · rw [if_pos h1, if_pos h2, List.mem_append, mem_rangeBlock, ih (j + 1) seen i]
        constructor
        · rintro (⟨ha, hb⟩ | ⟨t, ht, hc, hd, he, hf⟩)
          · exact Or.inl ⟨by simpa using h1, Or.inl (by simpa using h2), by omega, by omega⟩
          · refine Or.inr ⟨t, ht, by simpa using hc, ?_, by omega, by omega⟩
            simp only [List.getD_cons_succ]
            rcases hd with hseen | ⟨u, hu, hequ⟩
            · exact Or.inl hseen
            · exact Or.inr ⟨u + 1, by omega, by simpa [List.getD_cons_succ] using hequ⟩
        · rintro (⟨_, _, hd, he⟩ | ⟨t, ht, hc, hd, he, hf⟩)
          · exact Or.inl ⟨by omega, by omega⟩
          · refine Or.inr ⟨t, ht, by simpa using hc, ?_, by omega, by omega⟩
            simp only [List.getD_cons_succ] at hd ⊢
            rcases hd with hseen | ⟨u, hu, hequ⟩
            · exact Or.inl hseen
            · cases u with
              | zero =>
                simp only [List.getD_cons_zero] at hequ
                exact Or.inl (hequ ▸ h2)
              | succ u' =>
                simp only [List.getD_cons_succ] at hequ
                exact Or.inr ⟨u', by omega, hequ⟩
      · rw [if_pos h1, if_neg h2, ih (j + 1) (g :: seen) i]
        constructor
        · rintro ⟨t, ht, hc, hd, he, hf⟩
          refine Or.inr ⟨t, ht, by simpa using hc, ?_, by omega, by omega⟩
          simp only [List.getD_cons_succ]
          rcases hd with hseen | ⟨u, hu, hequ⟩
          · rcases List.mem_cons.mp hseen with heq | hseen'
            · exact Or.inr ⟨0, by omega, by simpa using heq.symm⟩
            · exact Or.inl hseen'
          · exact Or.inr ⟨u + 1, by omega, by simpa using hequ⟩
        · rintro (⟨_, hd, _, _⟩ | ⟨t, ht, hc, hd, he, hf⟩)
          · simp only [List.getD_cons_zero] at hd
            rcases hd with hseen | ⟨u, hu, _⟩
            · exact absurd hseen h2
            · omega
          · refine ⟨t, ht, by simpa using hc, ?_, by omega, by omega⟩
            simp only [List.getD_cons_succ] at hd ⊢
            rcases hd with hseen | ⟨u, hu, hequ⟩
            · exact Or.inl (List.mem_cons_of_mem _ hseen)
            · cases u with
              | zero =>
                simp only [List.getD_cons_zero] at hequ
                exact Or.inl (hequ ▸ List.mem_cons_self _ _)
              | succ u' =>
                simp only [List.getD_cons_succ] at hequ
                exact Or.inr ⟨u', by omega, hequ⟩
    · rw [if_neg h1, ih (j + 1) seen i]
      constructor
      · rintro ⟨t, ht, hc, hd, he, hf⟩
        refine Or.inr ⟨t, ht, by simpa using hc, ?_, by omega, by omega⟩
        simp only [List.getD_cons_succ]
        exact hd.imp id (fun ⟨u, hu, hequ⟩ => ⟨u + 1, by omega, by simpa using hequ⟩)
      · rintro (⟨hcount, _, _, _⟩ | ⟨t, ht, hc, hd, he, hf⟩)
        · simp only [List.getD_cons_zero] at hcount
          omega
        · refine ⟨t, ht, by simpa using hc, ?_, by omega, by omega⟩
          simp only [List.getD_cons_succ] at hc hd ⊢
          rcases hd with hseen | ⟨u, hu, hequ⟩
          · exact Or.inl hseen
          · cases u with
            | zero =>
              simp only [List.getD_cons_zero] at hequ
              exfalso
              rw [← hequ] at hc
              omega
            | succ u' =>
              simp only [List.getD_cons_succ] at hequ
              exact Or.inr ⟨u', by omega, hequ⟩

theorem getD_mem_of_lt (l : List (List Char)) (n : Nat) (h : n < l.length) :
    l.getD n [] ∈ l := by
  rw [List.getD_eq_getElem _ _ h]
  exact List.getElem_mem h

/-- Two occurrences at distinct indices force a count above one. -/
theorem count_two_of_dup (l : List (List Char)) (u t : Nat) (h1 : u < t)
    (h2 : t < l.length) (h3 : l.getD u [] = l.getD t []) :
    1 < l.count (l.getD t []) := by
  induction l generalizing u t with
  | nil => simp at h2
  | cons x rest ih =>
    cases t with
    | zero => omega
    | succ t' =>
      have ht' : t' < rest.length := by simpa using h2
      rw [List.getD_cons_succ] at h3 ⊢
      cases u with
      | zero =>
        rw [List.getD_cons_zero] at h3
        have hmem : rest.getD t' [] ∈ rest := getD_mem_of_lt rest t' ht'
        have hpos : 0 < rest.count (rest.getD t' []) :=
          List.count_pos_iff.mpr hmem
        rw [← h3, List.count_cons_self]
        rw [← h3] at hpos
        omega
      | succ u' =>
        have hr := ih u' t' (by omega) ht' h3
        have : rest.count (rest.getD t' []) ≤ (x :: rest).count (rest.getD t' []) := by
          rw [List.count_cons]
          split <;> omega
        omega

/-! ### Preservation of a non-whitespace, non-punctuation head character
through the cleaning pipeline.  These lemmas justify that a candidate whose
parsed text has non-empty trim (the source's test) also cleans to non-empty
text (the specification's wording), and conversely. -/
theorem bool_false_of_not_true {b : Bool} (h : ¬ b = true) : b = false := by
  cases hb : b
  · rfl
  · exact absurd hb h

theorem normWS_cons_not_ws (x : Char) (l : List Char) (hx : isWS x = false) :
    normWS (x :: l) = x :: normWSgo false l := by
  simp [normWS, normWSgo, hx]

theorem normNL_cons_not_nl (x : Char) (l : List Char) (hx : x ≠ '\n') :
    normNL (x :: l) = x :: normNLgo false l := by
  simp [normNL, normNLgo, hx]

theorem dropWhile_append_single {p : Char → Bool} (x : Char) (hx : p x = false) :
    ∀ (m : List Char), ∃ l', ((m ++ [x]).dropWhile p).reverse = x :: l' := by
  intro m
  induction m with
  | nil => exact ⟨[], by simp [List.dropWhile, hx]⟩
  | cons a m' ih =>
    by_cases ha : p a = true
    · simpa [List.dropWhile, ha] using ih
    · exact ⟨m'.reverse ++ [a], by simp [List.dropWhile, bool_false_of_not_true ha]⟩

theorem trimC_cons_not_ws (x : Char) (l : List Char) (hx : isWS x = false) :
    ∃ l', trimC (x :: l) = x :: l' := by
  unfold trimC
  rw [List.dropWhile_cons, if_neg (by simp [hx]), List.reverse_cons]
  exact dropWhile_append_single x hx l.reverse

theorem dropWhile_head_false {p : Char → Bool} :
    ∀ (l : List Char) (x : Char) (rest : List Char),
      l.dropWhile p = x :: rest → p x = false := by
  intro l
  induction l with
  | nil => intro x rest h; simp [List.dropWhile] at h
  | cons a t ih =>
    intro x rest h
    rw [List.dropWhile_cons] at h
    split at h
    · exact ih x rest h
    · rename_i hpa
      injection h with h1 _
      subst h1
      exact bool_false_of_not_true hpa

theorem trimC_ne_head (l : List Char) (h : trimC l ≠ []) :
    ∃ x t, trimC l = x :: t ∧ isWS x = false := by
  cases hd : l.dropWhile (fun c => isWS c) with
  | nil =>
    exfalso
    apply h
    unfold trimC
    rw [hd]
    rfl
  | cons x rest =>
    have hx : isWS x = false := by
      have := dropWhile_head_false l x rest hd
      simpa using this
    unfold trimC
    rw [hd, List.reverse_cons]
    obtain ⟨l', hl'⟩ := dropWhile_append_single x hx rest.reverse
    exact ⟨x, l', hl', hx⟩

theorem mem_of_mem_dropWhile {p : Char → Bool} :
    ∀ (l : List Char) (c : Char), c ∈ l.dropWhile p → c ∈ l := by
  intro l
  induction l with
  | nil => intro c h; simp [List.dropWhile] at h
  | cons a t ih =>
    intro c h
    rw [List.dropWhile_cons] at h
    split at h
    · exact List.mem_cons_of_mem _ (ih c h)
    · exact h

theorem trimC_subset (l : List Char) (c : Char) (h : c ∈ trimC l) : c ∈ l := by
  unfold trimC at h
  rw [List.mem_reverse] at h
  have h2 := mem_of_mem_dropWhile _ c h
  rw [List.mem_reverse] at h2
  exact mem_of_mem_dropWhile _ c h2

theorem splitRuns_ne_nil (p : Char → Bool) (l : List Char) : splitRuns p l ≠ [] := by
  cases l with
  | nil => simp [splitRuns_nil]
  | cons c t =>
    by_cases hp : p c = true
    · rw [splitRuns_cons_pos t hp]; simp
    · rw [splitRuns_cons_neg t (bool_false_of_not_true hp)]
      cases splitRuns p t <;> simp

theorem splitRuns_cons_head (p : Char → Bool) (x : Char) (l : List Char)
    (hx : p x = false) :
    ∃ piece rest, splitRuns p (x :: l) = (x :: piece) :: rest := by
  rw [splitRuns_cons_neg l hx]
  cases hs : splitRuns p l with
  | nil => exact ⟨[], [], rfl⟩
  | cons piece rest => exact ⟨piece, rest, rfl⟩

theorem splitRunsF_mem_chars (p : Char → Bool) :
    ∀ (fuel : Nat) (l piece : List Char), l.length < fuel →
      piece ∈ splitRunsF p fuel l → ∀ c ∈ piece, p c = false ∧ c ∈ l := by
  intro fuel
  induction fuel with
  | zero => intro l piece h; omega
  | succ f ih =>
    intro l piece hlen hmem c hc
    cases l with
    | nil =>
      simp only [splitRunsF] at hmem
      rw [List.mem_singleton] at hmem
      subst hmem
      simp at hc
    | cons a t =>
      simp only [List.length_cons] at hlen
      simp only [splitRunsF] at hmem
      by_cases hpa : p a = true
      · rw [if_pos hpa] at hmem
        rcases List.mem_cons.mp hmem with rfl | hmem'
        · simp at hc
        · have hd := dropWhile_len_le p t
          have := ih (t.dropWhile p) piece (by omega) hmem' c hc
          exact ⟨this.1, List.mem_cons_of_mem _ (mem_of_mem_dropWhile t c this.2)⟩
      · rw [if_neg hpa] at hmem
        cases hs : splitRunsF p f t with
        | nil =>
          rw [hs] at hmem
          rw [List.mem_singleton] at hmem
          subst hmem
          rw [List.mem_singleton] at hc
          subst hc
          exact ⟨bool_false_of_not_true hpa, List.mem_cons_self _ _⟩
        | cons ph pt =>
          rw [hs] at hmem
          rcases List.mem_cons.mp hmem with rfl | hmem'
          · rcases List.mem_cons.mp hc with rfl | hc'
            · exact ⟨bool_false_of_not_true hpa, List.mem_cons_self _ _⟩
            · have hphm : ph ∈ splitRunsF p f t := by rw [hs]; exact List.mem_cons_self _ _
              have := ih t ph (by omega) hphm c hc'
              exact ⟨this.1, List.mem_cons_of_mem _ this.2⟩
          · have hptm : piece ∈ splitRunsF p f t := by
              rw [hs]; exact List.mem_cons_of_mem _ hmem'
            have := ih t piece (by omega) hptm c hc
            exact ⟨this.1, List.mem_cons_of_mem _ this.2⟩

theorem splitRuns_mem_chars (p : Char → Bool) (l piece : List Char)
    (hmem : piece ∈ splitRuns p l) : ∀ c ∈ piece, p c = false ∧ c ∈ l :=
  splitRunsF_mem_chars p (l.length + 1) l piece (by omega) hmem

theorem joinSep_head (sep : List Char) (x : Char) (tp : List Char)
    (rest : List (List Char)) :
    ∃ l', joinSep sep ((x :: tp) :: rest) = x :: l' := by
  cases rest with
  | nil => exact ⟨tp, rfl⟩
  | cons y rs => exact ⟨tp ++ sep ++ joinSep sep (y :: rs), rfl⟩

theorem stepA_cons_good (x : Char) (l : List Char) (hws : isWS x = false)
    (hp : isPunct x = false) :
    ∃ l', stepA (x :: l) = x :: l' := by
  unfold stepA
  rw [normWS_cons_not_ws x l hws]
  have hnl : x ≠ '\n' := by
    intro h
    subst h
    simp [isWS] at hws
  rw [normNL_cons_not_nl x _ hnl]
  obtain ⟨t1, ht1⟩ := trimC_cons_not_ws x _ hws
  rw [ht1]
  unfold sentencesOf
  obtain ⟨piece, restp, hsp⟩ := splitRuns_cons_head isPunct x t1 hp
  rw [hsp, List.filter_cons]
  obtain ⟨tp, htp⟩ := trimC_cons_not_ws x piece hws
  rw [if_pos (by rw [htp]; simp)]
  simp only [dedupSentsGo]
  rw [if_pos (by rw [htp]; simp [toLowerL])]
  rw [htp]
  exact joinSep_head _ x tp _

theorem zero_not_in_ngScan (n : Nat) (grams : List (List Char)) :
    0 ∉ ngScan n grams 0 [] grams := by
  intro h
  obtain ⟨t, _, _, hd, he, _⟩ := (ngScan_mem n grams grams 0 [] 0).mp h
  rcases hd with hseen | ⟨u, hu, _⟩
  · exact List.not_mem_nil _ hseen
  · omega

theorem removeNG_cons_not_ws (n : Nat) (x : Char) (l : List Char)
    (hws : isWS x = false) :
    ∃ l', removeNG n (x :: l) = x :: l' := by
  simp only [removeNG]
  obtain ⟨piece, restw, hsp⟩ := splitRuns_cons_head isWS x l hws
  rw [hsp]
  rw [List.enum_cons, List.filter_cons]
  rw [if_pos (by
    simp only [decide_eq_true_eq]
    exact zero_not_in_ngScan n _)]
  rw [List.map_cons]
  exact joinSep_head [' '] x piece _

theorem ngramStage_cons_not_ws (x : Char) (l : List Char) (hws : isWS x = false) :
    ∃ l', ngramStage (x :: l) = x :: l' := by
  unfold ngramStage
  obtain ⟨l5, h5⟩ := removeNG_cons_not_ws 5 x l hws
  rw [h5]
  obtain ⟨l4, h4⟩ := removeNG_cons_not_ws 4 x l5 hws
  rw [h4]
  obtain ⟨l3, h3⟩ := removeNG_cons_not_ws 3 x l4 hws
  rw [h3]
  exact removeNG_cons_not_ws 2 x l3 hws

theorem fixDD_cons_good (x : Char) (l : List Char) (hws : isWS x = false)
    (hp : isPunct x = false) :
    fixDD (x :: l) = x :: fixDD l := by
  apply scanRepl_cons_none
  unfold mDD matchDD
  rw [List.dropWhile_cons, if_neg (by simp [hws])]
  have hxd : x ≠ '.' := by
    intro h
    subst h
    simp [isPunct] at hp
  simp [afterDot, hxd]

theorem fixPS_cons_good (x : Char) (l : List Char) (hws : isWS x = false)
    (hp : isPunct x = false) :
    fixPS (x :: l) = x :: fixPS l := by
  apply scanRepl_cons_none
  unfold mPS matchPS
  rw [List.dropWhile_cons, if_neg (by simp [hws])]
  simp [takePunct, hp]

theorem step4_cons_good (x : Char) (l : List Char) (hws : isWS x = false)
    (hp : isPunct x = false) :
    ∃ l', step4 (x :: l) = x :: l' := by
  unfold step4
  rw [fixDD_cons_good x l hws hp]
  rw [normWS_cons_not_ws _ _ hws]
  rw [fixPS_cons_good x _ hws hp]
  exact trimC_cons_not_ws x _ hws

theorem step5_ne {l : List Char} (h : l ≠ []) : step5 l ≠ [] := by
  unfold step5
  split
  · simp
  · exact h

theorem cleanL_cons_good (x : Char) (l : List Char) (hws : isWS x = false)
    (hp : isPunct x = false) :
    cleanTranscriptL (x :: l) ≠ [] := by
  unfold cleanTranscriptL
  obtain ⟨t1, ht1⟩ := trimC_cons_not_ws x l hws
  rw [if_neg (by rw [ht1]; simp)]
  obtain ⟨l1, h1⟩ := stepA_cons_good x l hws hp
  rw [h1]
  obtain ⟨l2, h2⟩ := ngramStage_cons_not_ws x l1 hws
  rw [h2]
  obtain ⟨l3, h3⟩ := step4_cons_good x l2 hws hp
  rw [h3]
  exact step5_ne (by simp)

theorem mem_dedupExactGo :
    ∀ (xs seen : List (List Char)) (ys : List Char),
      ys ∈ dedupExactGo seen xs → ys ∈ xs := by
  intro xs
  induction xs with
  | nil => intro seen ys h; simp [dedupExactGo] at h
  | cons s t ih =>
    intro seen ys h
    simp only [dedupExactGo] at h
    split at h
    · exact List.mem_cons_of_mem _ (ih seen ys h)
    · rcases List.mem_cons.mp h with rfl | h'
      · exact List.mem_cons_self _ _
      · exact List.mem_cons_of_mem _ (ih _ ys h')

/-- The parser's output is empty or starts with a character that is neither
whitespace nor sentence punctuation. -/
theorem parseVTTL_shape (doc : List Char) :
    parseVTTL doc = [] ∨
      ∃ x l', parseVTTL doc = x :: l' ∧ isWS x = false ∧ isPunct x = false := by
  simp only [parseVTTL]
  cases hu : dedupExactGo []
      (((splitRuns isPunct (trimC (normWS (joinSep [' ']
        (vttLoop false (splitChar '\n' doc)))))).filter
          (fun s => trimC s ≠ [])).map trimC) with
  | nil => left; rfl
  | cons y u' =>
    right
    have hy : y ∈ ((splitRuns isPunct (trimC (normWS (joinSep [' ']
        (vttLoop false (splitChar '\n' doc)))))).filter
          (fun s => trimC s ≠ [])).map trimC :=
      mem_dedupExactGo _ [] y (hu ▸ List.mem_cons_self _ _)
    obtain ⟨s, hs, hys⟩ := List.mem_map.mp hy
    have hsf := List.mem_filter.mp hs
    have hne : trimC s ≠ [] := by simpa using hsf.2
    obtain ⟨x, t, hxt, hxws⟩ := trimC_ne_head s hne
    have hxp : isPunct x = false := by
      have hmem : x ∈ s := trimC_subset s x (hxt ▸ List.mem_cons_self _ _)
      exact (splitRuns_mem_chars isPunct _ s hsf.1 x hmem).1
    have hyx : y = x :: t := by rw [← hys, hxt]
    subst hyx
    obtain ⟨j1, hj1⟩ := joinSep_head ['.', ' '] x t u'
    rw [hj1]
    obtain ⟨t2, ht2⟩ := trimC_cons_not_ws x j1 hxws
    rw [ht2]
    rw [if_pos (by simp)]
    exact ⟨x, t2 ++ ['.'], rfl, hxws, hxp⟩

/-- Bridge between the source's success test (parsed text has non-empty
trim) and the claim's wording (parsed text cleans to non-empty text). -/
theorem parse_trim_iff_clean (doc : String) :
    trimC (parseVTTContent doc).data ≠ [] ↔
      cleanTranscript (parseVTTContent doc) ≠ "" := by
  have hdata : (parseVTTContent doc).data = parseVTTL doc.data := rfl
  rw [hdata]
  constructor
  · intro h hstr
    rcases parseVTTL_shape doc.data with hnil | ⟨x, l', hx, hws, hp⟩
    · rw [hnil] at h
      exact h rfl
    · apply cleanL_cons_good x l' hws hp
      have h2 : cleanTranscriptL (parseVTTContent doc).data = [] := by
        rw [← mk_eq_empty_iff]
        exact hstr
      rw [hdata, hx] at h2
      exact h2
  · intro h hne
    apply h
    unfold cleanTranscript
    rw [mk_eq_empty_iff]
    unfold cleanTranscriptL
    rw [hdata, if_pos hne]

/-! ### Fixpoint and structure lemmas for the conditional idempotence of
`cleanTranscript` -/
theorem dropWhile_eq_self_of_head {p : Char → Bool} (l : List Char)
    (h : ∀ c, l.head? = some c → p c = false) : l.dropWhile p = l := by
  cases l with
  | nil => rfl
  | cons c t => rw [List.dropWhile_cons, if_neg (by simp [h c rfl])]

theorem trimC_eq_self (l : List Char)
    (hh : ∀ c, l.head? = some c → isWS c = false)
    (hl : ∀ c, l.getLast? = some c → isWS c = false) : trimC l = l := by
  unfold trimC
  rw [dropWhile_eq_self_of_head l (fun c hc => by simpa using hh c hc)]
  rw [dropWhile_eq_self_of_head l.reverse (fun c hc => by
    rw [List.head?_reverse] at hc
    simpa using hl c hc)]
  exact List.reverse_reverse l

theorem trimC_cons_ws (c : Char) (l : List Char) (hc : isWS c = true) :
    trimC (c :: l) = trimC l := by
  unfold trimC
  rw [List.dropWhile_cons, if_pos (by simp [hc])]

theorem trimC_last (l : List Char) (h : trimC l ≠ []) :
    ∃ c, (trimC l).getLast? = some c ∧ isWS c = false := by
  cases he : (l.dropWhile (fun c => isWS c)).reverse.dropWhile (fun c => isWS c) with
  | nil =>
    exfalso
    apply h
    unfold trimC
    rw [he]
    rfl
  | cons x rest =>
    have hx := dropWhile_head_false _ x rest he
    refine ⟨x, ?_, by simpa using hx⟩
    unfold trimC
    rw [he]
    have h2 := List.head?_reverse ((x :: rest).reverse)
    rw [List.reverse_reverse] at h2
    rw [← h2]
    rfl

theorem normWSgo_mem :
    ∀ (l : List Char) (b : Bool) (c : Char),
      c ∈ normWSgo b l → c = ' ' ∨ (c ∈ l ∧ isWS c = false) := by
  intro l
  induction l with
  | nil => intro b c hc; simp [normWSgo] at hc
  | cons a t ih =>
    intro b c hc
    by_cases ha : isWS a = true
    · cases b with
      | true =>
        simp only [normWSgo, ha, if_true] at hc
        rcases ih true c hc with h | ⟨hm, hf⟩
        · exact Or.inl h
        · exact Or.inr ⟨List.mem_cons_of_mem _ hm, hf⟩
      | false =>
        simp only [normWSgo, ha, if_true] at hc
        rcases List.mem_cons.mp hc with rfl | hc'
        · exact Or.inl rfl
        · rcases ih true c hc' with h | ⟨hm, hf⟩
          · exact Or.inl h
          · exact Or.inr ⟨List.mem_cons_of_mem _ hm, hf⟩
    · have ha' : isWS a = false := bool_false_of_not_true ha
      simp only [normWSgo, ha'] at hc
      rw [if_neg (by simp)] at hc
      rcases List.mem_cons.mp hc with rfl | hc'
      · exact Or.inr ⟨List.mem_cons_self _ _, ha'⟩
      · rcases ih false c hc' with h | ⟨hm, hf⟩
        · exact Or.inl h
        · exact Or.inr ⟨List.mem_cons_of_mem _ hm, hf⟩

theorem normWS_ws_space (l : List Char) (c : Char) (hc : c ∈ normWS l)
    (hw : isWS c = true) : c = ' ' := by
  rcases normWSgo_mem l false c hc with h | ⟨_, hf⟩
  · exact h
  · rw [hf] at hw
    exact Bool.noConfusion hw

theorem normWSgo_chain :
    ∀ (l : List Char),
      ((normWSgo true l).Chain' noDbl ∧
        ∀ c, (normWSgo true l).head? = some c → isWS c = false) ∧
      (normWSgo false l).Chain' noDbl := by
  intro l
  induction l with
  | nil =>
    refine ⟨⟨?_, ?_⟩, ?_⟩
    · exact List.chain'_nil
    · intro c hc; simp [normWSgo] at hc
    · exact List.chain'_nil
  | cons a t ih =>
    by_cases ha : isWS a = true
    · refine ⟨⟨?_, ?_⟩, ?_⟩
      · simpa only [normWSgo, ha, if_true] using ih.1.1
      · intro c hc
        simp only [normWSgo, ha, if_true] at hc
        exact ih.1.2 c hc
      · simp only [normWSgo, ha, if_true]
        rw [if_neg (fun h => Bool.false_ne_true h), List.chain'_cons']
        refine ⟨?_, ih.1.1⟩
        intro b hb
        intro hand
        have := ih.1.2 b hb
        rw [this] at hand
        exact Bool.noConfusion hand.2
    · have ha' : isWS a = false := bool_false_of_not_true ha
      have hcons : ∀ b : Bool, normWSgo b (a :: t) = a :: normWSgo false t := by
        intro b
        simp only [normWSgo, ha']
        rw [if_neg (by simp)]
      refine ⟨⟨?_, ?_⟩, ?_⟩
      · rw [hcons true, List.chain'_cons']
        refine ⟨?_, ih.2⟩
        intro b _
        intro hand
        rw [ha'] at hand
        exact Bool.noConfusion hand.1
      · intro c hc
        rw [hcons true] at hc
        injection hc with hc
        rw [← hc]
        exact ha'
      · rw [hcons false, List.chain'_cons']
        refine ⟨?_, ih.2⟩
        intro b _
        intro hand
        rw [ha'] at hand
        exact Bool.noConfusion hand.1

theorem chain'_normWS (l : List Char) : (normWS l).Chain' noDbl :=
  (normWSgo_chain l).2

theorem normNL_id : ∀ (l : List Char), '\n' ∉ l → normNL l = l := by
  intro l
  have haux : ∀ (m : List Char), '\n' ∉ m → normNLgo false m = m := by
    intro m
    induction m with
    | nil => intro _; rfl
    | cons c t ih =>
      intro hm
      have hc : ¬ c = '\n' := fun h => hm (h ▸ List.mem_cons_self _ _)
      simp only [normNLgo, hc, if_false]
      rw [ih (fun h => hm (List.mem_cons_of_mem _ h))]
  exact haux l

theorem trimC_chunk (l : List Char) : trimC l <:+: l := by
  obtain ⟨pre, hpre⟩ := List.dropWhile_suffix (l := l) (fun c => isWS c)
  obtain ⟨suf', hsuf'⟩ :=
    List.dropWhile_suffix (l := (l.dropWhile (fun c => isWS c)).reverse)
      (fun c => isWS c)
  refine ⟨pre, suf'.reverse, ?_⟩
  have h2 : l.dropWhile (fun c => isWS c) = trimC l ++ suf'.reverse := by
    unfold trimC
    have h3 := congrArg List.reverse hsuf'
    rw [List.reverse_append, List.reverse_reverse] at h3
    exact h3.symm
  calc pre ++ trimC l ++ suf'.reverse
      = pre ++ (trimC l ++ suf'.reverse) := by rw [List.append_assoc]
    _ = pre ++ l.dropWhile (fun c => isWS c) := by rw [← h2]
    _ = l := hpre

theorem splitRunsF_chunks (p : Char → Bool) :
    ∀ (fuel : Nat) (l : List Char), l.length < fuel →
      (∃ hd tl, splitRunsF p fuel l = hd :: tl ∧ hd <+: l) ∧
      (∀ piece ∈ splitRunsF p fuel l, piece <:+: l) := by
  intro fuel
  induction fuel with
  | zero => intro l h; omega
  | succ f ih =>
    intro l hlen
    cases l with
    | nil =>
      refine ⟨⟨[], [], rfl, List.nil_prefix⟩, ?_⟩
      intro piece hp
      simp only [splitRunsF, List.mem_singleton] at hp
      subst hp
      exact List.nil_infix
    | cons a t =>
      simp only [List.length_cons] at hlen
      by_cases hpa : p a = true
      · constructor
        · refine ⟨[], splitRunsF p f (t.dropWhile p), ?_, List.nil_prefix⟩
          simp only [splitRunsF, if_pos hpa]
        · intro piece hp
          simp only [splitRunsF, if_pos hpa] at hp
          rcases List.mem_cons.mp hp with rfl | hp'
          · exact List.nil_infix
          · have hd := dropWhile_len_le p t
            have hinf := (ih (t.dropWhile p) (by omega)).2 piece hp'
            have hsuf : t.dropWhile p <:+ t := List.dropWhile_suffix p
            exact List.IsInfix.trans hinf (List.IsInfix.trans (List.IsSuffix.isInfix hsuf) (List.infix_cons (List.infix_refl t)))
      · have hpa' : p a = false := bool_false_of_not_true hpa
        have hrec := ih t (by omega)
        obtain ⟨hd, tl, hsp, hpref⟩ := hrec.1
        constructor
        · refine ⟨a :: hd, tl, ?_, ?_⟩
          · simp only [splitRunsF]
            rw [if_neg (by simp [hpa']), hsp]
          · obtain ⟨u, hu⟩ := hpref
            exact ⟨u, by rw [List.cons_append, hu]⟩
        · intro piece hp
          simp only [splitRunsF] at hp
          rw [if_neg (by simp [hpa']), hsp] at hp
          rcases List.mem_cons.mp hp with rfl | hp'
          · obtain ⟨u, hu⟩ := hpref
            have hp2 : (a :: hd) <+: (a :: t) := ⟨u, by rw [List.cons_append, hu]⟩
            exact List.IsPrefix.isInfix hp2
          · have hmem : piece ∈ splitRunsF p f t := by
              rw [hsp]
              exact List.mem_cons_of_mem _ hp'
            exact (hrec.2 piece hmem).trans (List.infix_cons (List.infix_refl t))

theorem splitRuns_piece_chunk (p : Char → Bool) (l piece : List Char)
    (h : piece ∈ splitRuns p l) : piece <:+: l :=
  (splitRunsF_chunks p (l.length + 1) l (by omega)).2 piece h

theorem joinSep_ne_nil (sep : List Char) (y : List Char) (ys : List (List Char))
    (hy : y ≠ []) : joinSep sep (y :: ys) ≠ [] := by
  cases ys with
  | nil => exact hy
  | cons y' yt =>
    simp only [joinSep]
    intro h
    exact hy (List.append_eq_nil.mp (List.append_eq_nil.mp h).1).1

theorem joinSep_dot_cons (y y' : List Char) (yt : List (List Char)) :
    joinSep ['.', ' '] (y :: y' :: yt) =
      y ++ ('.' :: ' ' :: joinSep ['.', ' '] (y' :: yt)) := by
  show (y ++ ['.', ' ']) ++ joinSep ['.', ' '] (y' :: yt) = _
  rw [List.append_assoc, List.cons_append, List.cons_append, List.nil_append]

theorem mem_joinSep (sep : List Char) :
    ∀ (ys : List (List Char)) (c : Char),
      c ∈ joinSep sep ys → c ∈ sep ∨ ∃ y ∈ ys, c ∈ y := by
  intro ys
  induction ys with
  | nil => intro c hc; simp [joinSep] at hc
  | cons y yt ih =>
    intro c hc
    cases yt with
    | nil => exact Or.inr ⟨y, by simp, by simpa [joinSep] using hc⟩
    | cons y' yt' =>
      simp only [joinSep, List.mem_append] at hc
      rcases hc with (hy | hsep) | hrest
      · exact Or.inr ⟨y, List.mem_cons_self _ _, hy⟩
      · exact Or.inl hsep
      · rcases ih c hrest with h | ⟨z, hz, hcz⟩
        · exact Or.inl h
        · exact Or.inr ⟨z, List.mem_cons_of_mem _ hz, hcz⟩

theorem getLast?_append_right (a b : List Char) (hb : b ≠ []) :
    (a ++ b).getLast? = b.getLast? := by
  rw [← List.head?_reverse, ← List.head?_reverse, List.reverse_append]
  cases hrb : b.reverse with
  | nil => exact absurd (by simpa using congrArg List.reverse hrb) hb
  | cons c t => simp [hrb]

theorem joinSep_getLast (sep : List Char) :
    ∀ (ys : List (List Char)), (∀ z ∈ ys, z ≠ []) → ys ≠ [] →
      ∃ z ∈ ys, (joinSep sep ys).getLast? = z.getLast? := by
  intro ys
  induction ys with
  | nil => intro _ h; exact absurd rfl h
  | cons y yt ih =>
    intro hz _
    cases yt with
    | nil => exact ⟨y, List.mem_cons_self _ _, rfl⟩
    | cons y' yt' =>
      obtain ⟨z, hzm, hzeq⟩ := ih (fun z hz' => hz z (List.mem_cons_of_mem _ hz'))
        (by simp)
      refine ⟨z, List.mem_cons_of_mem _ hzm, ?_⟩
      have hne : joinSep sep (y' :: yt') ≠ [] :=
        joinSep_ne_nil sep y' yt' (hz y' (by simp))
      simp only [joinSep]
      rw [getLast?_append_right (y ++ sep) (joinSep sep (y' :: yt')) hne, hzeq]

theorem mem_of_getLast?_eq {l : List Char} {c : Char} (h : l.getLast? = some c) :
    c ∈ l := by
  rw [← List.head?_reverse] at h
  exact List.mem_reverse.mp (List.mem_of_mem_head? h)

theorem join_ws_space (ys : List (List Char)) (hsg : ∀ z ∈ ys, SentG z) :
    ∀ c ∈ joinSep ['.', ' '] ys, isWS c = true → c = ' ' := by
  intro c hc hw'
  rcases mem_joinSep ['.', ' '] ys c hc with hsep | ⟨z, hz, hcz⟩
  · have : c = '.' ∨ c = ' ' := by simpa using hsep
    rcases this with rfl | rfl
    · exact absurd hw' (by decide)
    · rfl
  · exact (hsg z hz).wsSp c hcz hw'

theorem join_head_ok (y : List Char) (yt : List (List Char))
    (hsg : ∀ z ∈ y :: yt, SentG z) :
    ∀ c, (joinSep ['.', ' '] (y :: yt)).head? = some c →
      isWS c = false ∧ isPunct c = false := by
  intro c hc
  cases hye : y with
  | nil => exact absurd hye (hsg y (List.mem_cons_self _ _)).ne
  | cons c0 t0 =>
    obtain ⟨l', hl'⟩ := joinSep_head ['.', ' '] c0 t0 yt
    rw [hye, hl', List.head?_cons] at hc
    injection hc with hc
    subst hc
    exact ⟨(hsg y (List.mem_cons_self _ _)).headOK c0 (by rw [hye]; rfl),
      (hsg y (List.mem_cons_self _ _)).npunct c0 (by rw [hye]; exact List.mem_cons_self _ _)⟩

theorem join_last_ok (y : List Char) (yt : List (List Char))
    (hsg : ∀ z ∈ y :: yt, SentG z) :
    ∀ c, (joinSep ['.', ' '] (y :: yt)).getLast? = some c →
      isWS c = false ∧ isPunct c = false := by
  intro c hc
  obtain ⟨z, hz, hze⟩ := joinSep_getLast ['.', ' '] (y :: yt)
    (fun z hz => (hsg z hz).ne) (by simp)
  rw [hze] at hc
  exact ⟨(hsg z hz).lastOK c hc, (hsg z hz).npunct c (mem_of_getLast?_eq hc)⟩

theorem chain'_joinSep :
    ∀ (ys : List (List Char)), (∀ z ∈ ys, SentG z) →
      (joinSep ['.', ' '] ys).Chain' noDbl := by
  intro ys
  induction ys with
  | nil => intro _; exact List.chain'_nil
  | cons y yt ih =>
    intro h
    cases yt with
    | nil => exact (h y (List.mem_cons_self _ _)).chain
    | cons y' yt' =>
      have hy := h y (List.mem_cons_self _ _)
      have hrest := ih (fun z hz => h z (List.mem_cons_of_mem _ hz))
      have hjh := join_head_ok y' yt' (fun z hz => h z (List.mem_cons_of_mem _ hz))
      rw [joinSep_dot_cons, List.chain'_append]
      refine ⟨hy.chain, ?_, ?_⟩
      · rw [List.chain'_cons]
        refine ⟨fun hand => absurd hand.1 (by decide), ?_⟩
        rw [List.chain'_cons']
        refine ⟨?_, hrest⟩
        intro b hb
        rw [Option.mem_def] at hb
        have hbw := (hjh b hb).1
        intro hand
        exact absurd hand.2 (by simp [hbw])
      · intro a _ b hb
        simp only [List.head?_cons, Option.mem_def, Option.some.injEq] at hb
        subst hb
        intro hand
        exact absurd hand.2 (by decide)

theorem splitRuns_front_append (p : Char → Bool) :
    ∀ (a l : List Char), (∀ c ∈ a, p c = false) →
      ∃ hd tl, splitRuns p l = hd :: tl ∧ splitRuns p (a ++ l) = (a ++ hd) :: tl := by
  intro a
  induction a with
  | nil =>
    intro l _
    cases hs : splitRuns p l with
    | nil => exact absurd hs (splitRuns_ne_nil p l)
    | cons hd tl => exact ⟨hd, tl, rfl, by simpa using hs⟩
  | cons c a' ih =>
    intro l ha
    obtain ⟨hd, tl, h1, h2⟩ := ih l (fun d hd' => ha d (List.mem_cons_of_mem _ hd'))
    refine ⟨hd, tl, h1, ?_⟩
    rw [List.cons_append, splitRuns_cons_neg (a' ++ l) (ha c (List.mem_cons_self _ _)), h2]
    rfl

theorem splitRuns_join_dot :
    ∀ (yt : List (List Char)) (y : List Char),
      (∀ z ∈ y :: yt, z ≠ [] ∧ ∀ c ∈ z, isPunct c = false) →
      splitRuns isPunct (joinSep ['.', ' '] (y :: yt) ++ ['.']) =
        y :: (yt.map (fun z => ' ' :: z) ++ [[]]) := by
  intro yt
  induction yt with
  | nil =>
    intro y h
    obtain ⟨hd, tl, h1, h2⟩ :=
      splitRuns_front_append isPunct y ['.'] (h y (List.mem_cons_self _ _)).2
    have h3 : splitRuns isPunct ['.'] = [[], []] := rfl
    rw [h3] at h1
    injection h1 with ha hb
    subst ha
    subst hb
    show splitRuns isPunct (y ++ ['.']) =
      y :: (List.map (fun z => ' ' :: z) [] ++ [[]])
    rw [h2]
    simp
  | cons y' yt' ih =>
    intro y h
    have hrec := ih y' (fun z hz => h z (List.mem_cons_of_mem _ hz))
    have hstep : joinSep ['.', ' '] (y :: y' :: yt') ++ ['.']
        = y ++ ('.' :: ' ' :: (joinSep ['.', ' '] (y' :: yt') ++ ['.'])) := by
      rw [joinSep_dot_cons, List.append_assoc, List.cons_append, List.cons_append]
    rw [hstep]
    obtain ⟨hd, tl, h1, h2⟩ := splitRuns_front_append isPunct y
      ('.' :: ' ' :: (joinSep ['.', ' '] (y' :: yt') ++ ['.']))
      ((h y (List.mem_cons_self _ _)).2)
    have hy'h : ∀ c, (joinSep ['.', ' '] (y' :: yt')).head? = some c →
        isPunct c = false := by
      intro c hc
      cases hye : y' with
      | nil => exact absurd hye (h y' (by simp)).1
      | cons c0 t0 =>
        obtain ⟨l', hl'⟩ := joinSep_head ['.', ' '] c0 t0 yt'
        rw [hye, hl', List.head?_cons] at hc
        injection hc with hc
        subst hc
        exact (h y' (by simp)).2 c0 (by rw [hye]; exact List.mem_cons_self _ _)
    have h4 : splitRuns isPunct ('.' :: ' ' :: (joinSep ['.', ' '] (y' :: yt') ++ ['.']))
        = [] :: splitRuns isPunct (' ' :: (joinSep ['.', ' '] (y' :: yt') ++ ['.'])) := by
      rw [splitRuns_cons_pos _ (by decide)]
      rw [List.dropWhile_cons, if_neg (by decide)]
    have h5 : splitRuns isPunct (' ' :: (joinSep ['.', ' '] (y' :: yt') ++ ['.']))
        = (' ' :: y') :: (yt'.map (fun z => ' ' :: z) ++ [[]]) := by
      rw [splitRuns_cons_neg _ (by decide), hrec]
    rw [h4, h5] at h1
    injection h1 with ha hb
    subst ha
    subst hb
    rw [h2]
    simp

/-! ### Fixpoints of the step-4 scans on canonical joined sentence lists -/
theorem scanRepl_id_of_no_match {m : List Char → Option (List Char × List Char)} :
    ∀ l : List Char, (∀ t, t <:+ l → m t = none) → scanRepl m l = l := by
  intro l
  induction l with
  | nil => intro _; rfl
  | cons c t ih =>
    intro h
    rw [scanRepl_cons_none (h (c :: t) (List.suffix_refl _)),
      ih (fun u hu => h u (hu.trans (List.suffix_cons c t)))]

theorem afterDot_none_of_head {l : List Char}
    (h : ∀ c, l.head? = some c → isPunct c = false) : afterDot l = none := by
  cases l with
  | nil => rfl
  | cons c t =>
    have hc := h c rfl
    simp only [afterDot]
    rw [if_neg (fun he => absurd hc (by rw [he]; decide))]

theorem mDD_none_of_head {l : List Char}
    (h : ∀ c, (l.dropWhile (fun c => isWS c)).head? = some c → isPunct c = false) :
    mDD l = none := by
  unfold mDD matchDD
  rw [afterDot_none_of_head h]
  rfl

theorem mPS_none_of_head {l : List Char}
    (h : ∀ c, (l.dropWhile (fun c => isWS c)).head? = some c → isPunct c = false) :
    mPS l = none := by
  have ht : takePunct (l.dropWhile (fun c => isWS c)) = none := by
    cases hd : l.dropWhile (fun c => isWS c) with
    | nil => rfl
    | cons c t =>
      have hc := h c (by rw [hd]; rfl)
      simp only [takePunct]
      rw [if_neg (by simp [hc])]
  unfold mPS matchPS
  rw [ht]
  rfl

theorem mDD_sep_none (j : List Char)
    (hj : ∀ c, j.head? = some c → isWS c = false ∧ isPunct c = false) :
    mDD ('.' :: ' ' :: j) = none := by
  have h1 : ('.' :: ' ' :: j).dropWhile (fun c => isWS c) = '.' :: ' ' :: j := by
    rw [List.dropWhile_cons, if_neg (by decide)]
  have h2 : afterDot ('.' :: ' ' :: j) = some (' ' :: j) := rfl
  have h3 : (' ' :: j).dropWhile (fun c => isWS c) = j := by
    rw [List.dropWhile_cons, if_pos (by decide)]
    exact dropWhile_eq_self_of_head j (fun c hc => (hj c hc).1)
  have h4 : afterDot j = none :=
    afterDot_none_of_head (fun c hc => (hj c hc).2)
  unfold mDD matchDD
  simp only [h1, h2, Option.some_bind, h3, h4, Option.map_none']

theorem mPS_sep (j : List Char) (hj : ∀ c, j.head? = some c → isWS c = false) :
    mPS ('.' :: ' ' :: j) = some (['.', ' '], j) := by
  have h1 : ('.' :: ' ' :: j).dropWhile (fun c => isWS c) = '.' :: ' ' :: j := by
    rw [List.dropWhile_cons, if_neg (by decide)]
  have h2 : takePunct ('.' :: ' ' :: j) = some ('.', ' ' :: j) := rfl
  have h3 : (' ' :: j).dropWhile (fun c => isWS c) = j := by
    rw [List.dropWhile_cons, if_pos (by decide)]
    exact dropWhile_eq_self_of_head j hj
  unfold mPS matchPS
  simp only [h1, h2, Option.map_some', h3]

theorem scanRepl_sent_append {m : List Char → Option (List Char × List Char)}
    (hnone : ∀ l, (∀ c, (l.dropWhile (fun c => isWS c)).head? = some c →
      isPunct c = false) → m l = none) :
    ∀ (y : List Char), (∀ c ∈ y, isPunct c = false) → y.Chain' noDbl →
      (∀ c, y.getLast? = some c → isWS c = false) →
      ∀ rest, scanRepl m (y ++ rest) = y ++ scanRepl m rest := by
  intro y
  induction y with
  | nil => intro _ _ _ rest; rfl
  | cons c v ih =>
    intro hnp hch hlast rest
    have hm : m (c :: (v ++ rest)) = none := by
      apply hnone
      intro e he
      by_cases hc : isWS c = true
      · cases hv : v with
        | nil =>
          exact absurd (hlast c (by rw [hv]; simp)) (by simp [hc])
        | cons d v' =>
          have hnd : noDbl c d := by
            rw [hv] at hch
            exact (List.chain'_cons.mp hch).1
          have hd : isWS d = false := by
            by_cases hdt : isWS d = true
            · exact absurd ⟨hc, hdt⟩ hnd
            · exact bool_false_of_not_true hdt
          rw [hv] at he
          rw [List.dropWhile_cons, if_pos (by simp [hc])] at he
          rw [List.cons_append, List.dropWhile_cons, if_neg (by simp [hd]),
            List.head?_cons] at he
          injection he with he
          subst he
          exact hnp d (by rw [hv]; exact List.mem_cons_of_mem _ (List.mem_cons_self _ _))
      · have hc' : isWS c = false := bool_false_of_not_true hc
        rw [List.dropWhile_cons, if_neg (by simp [hc']), List.head?_cons] at he
        injection he with he
        subst he
        exact hnp c (List.mem_cons_self _ _)
    have hnp' : ∀ e ∈ v, isPunct e = false := fun e he' => hnp e (List.mem_cons_of_mem _ he')
    have hch' : v.Chain' noDbl := (List.chain'_cons'.mp hch).2
    have hlast' : ∀ e, v.getLast? = some e → isWS e = false := by
      intro e he'
      cases v with
      | nil => simp at he'
      | cons d v' => exact hlast e (by rw [List.getLast?_cons_cons]; exact he')
    rw [List.cons_append, scanRepl_cons_none hm, ih hnp' hch' hlast' rest,
      List.cons_append]

theorem fixDD_join :
    ∀ (ys : List (List Char)), (∀ z ∈ ys, SentG z) →
      fixDD (joinSep ['.', ' '] ys) = joinSep ['.', ' '] ys := by
  intro ys
  induction ys with
  | nil => intro _; rfl
  | cons y yt ih =>
    intro h
    have hy := h y (List.mem_cons_self _ _)
    cases yt with
    | nil =>
      have h2 := scanRepl_sent_append (fun l hl => mDD_none_of_head hl) y
        hy.npunct hy.chain hy.lastOK []
      have h3 : scanRepl mDD ([] : List Char) = [] := rfl
      rw [h3, List.append_nil] at h2
      exact h2
    | cons y' yt' =>
      have hrest' : scanRepl mDD (joinSep ['.', ' '] (y' :: yt')) =
          joinSep ['.', ' '] (y' :: yt') :=
        ih (fun z hz => h z (List.mem_cons_of_mem _ hz))
      have hjh := join_head_ok y' yt' (fun z hz => h z (List.mem_cons_of_mem _ hz))
      have hsep1 : mDD ('.' :: ' ' :: joinSep ['.', ' '] (y' :: yt')) = none :=
        mDD_sep_none _ hjh
      have hsep2 : mDD (' ' :: joinSep ['.', ' '] (y' :: yt')) = none := by
        apply mDD_none_of_head
        intro c hc
        rw [List.dropWhile_cons, if_pos (by decide),
          dropWhile_eq_self_of_head _ (fun d hd => (hjh d hd).1)] at hc
        exact (hjh c hc).2
      rw [joinSep_dot_cons]
      show scanRepl mDD (y ++ ('.' :: ' ' :: joinSep ['.', ' '] (y' :: yt'))) =
        y ++ ('.' :: ' ' :: joinSep ['.', ' '] (y' :: yt'))
      rw [scanRepl_sent_append (fun l hl => mDD_none_of_head hl) y
        hy.npunct hy.chain hy.lastOK _]
      rw [scanRepl_cons_none hsep1, scanRepl_cons_none hsep2, hrest']

theorem fixPS_join :
    ∀ (ys : List (List Char)), (∀ z ∈ ys, SentG z) →
      fixPS (joinSep ['.', ' '] ys) = joinSep ['.', ' '] ys := by
  intro ys
  induction ys with
  | nil => intro _; rfl
  | cons y yt ih =>
    intro h
    have hy := h y (List.mem_cons_self _ _)
    cases yt with
    | nil =>
      have h2 := scanRepl_sent_append (fun l hl => mPS_none_of_head hl) y
        hy.npunct hy.chain hy.lastOK []
      have h3 : scanRepl mPS ([] : List Char) = [] := rfl
      rw [h3, List.append_nil] at h2
      exact h2
    | cons y' yt' =>
      have hrest' : scanRepl mPS (joinSep ['.', ' '] (y' :: yt')) =
          joinSep ['.', ' '] (y' :: yt') :=
        ih (fun z hz => h z (List.mem_cons_of_mem _ hz))
      have hjh := join_head_ok y' yt' (fun z hz => h z (List.mem_cons_of_mem _ hz))
      rw [joinSep_dot_cons]
      show scanRepl mPS (y ++ ('.' :: ' ' :: joinSep ['.', ' '] (y' :: yt'))) =
        y ++ ('.' :: ' ' :: joinSep ['.', ' '] (y' :: yt'))
      rw [scanRepl_sent_append (fun l hl => mPS_none_of_head hl) y
        hy.npunct hy.chain hy.lastOK _]
      rw [scanRepl_cons_some mPS_consuming (mPS_sep _ (fun d hd => (hjh d hd).1))]
      rw [hrest']
      rfl

theorem normWSgo_true_head (t : List Char)
    (h : ∀ d, t.head? = some d → isWS d = false) :
    normWSgo true t = normWSgo false t := by
  cases t with
  | nil => rfl
  | cons d t' =>
    have hd := h d rfl
    have hcons : ∀ b : Bool, normWSgo b (d :: t') = d :: normWSgo false t' := by
      intro b
      simp only [normWSgo, hd]
      rw [if_neg (by simp)]
    rw [hcons true, hcons false]

theorem normWSgo_id :
    ∀ (l : List Char), (∀ c ∈ l, isWS c = true → c = ' ') → l.Chain' noDbl →
      normWSgo false l = l := by
  intro l
  induction l with
  | nil => intro _ _; rfl
  | cons c t ih =>
    intro hws hch
    have hcht := (List.chain'_cons'.mp hch).2
    by_cases hc : isWS c = true
    · have hcsp : c = ' ' := hws c (List.mem_cons_self _ _) hc
      have hthead : ∀ d, t.head? = some d → isWS d = false := by
        intro d hd
        have hnd := (List.chain'_cons'.mp hch).1 d hd
        by_cases hdt : isWS d = true
        · exact absurd ⟨hc, hdt⟩ hnd
        · exact bool_false_of_not_true hdt
      simp only [normWSgo, hc, if_true]
      rw [if_neg (fun h => Bool.false_ne_true h)]
      rw [normWSgo_true_head t hthead,
        ih (fun d hd hw => hws d (List.mem_cons_of_mem _ hd) hw) hcht, hcsp]
    · have hc' : isWS c = false := bool_false_of_not_true hc
      simp only [normWSgo, hc']
      rw [if_neg (by simp)]
      rw [ih (fun d hd hw => hws d (List.mem_cons_of_mem _ hd) hw) hcht]

theorem normWS_id (l : List Char) (hws : ∀ c ∈ l, isWS c = true → c = ' ')
    (hch : l.Chain' noDbl) : normWS l = l :=
  normWSgo_id l hws hch

theorem newline_not_in_normWS (l : List Char) : '\n' ∉ normWS l := by
  intro hmem
  rcases normWSgo_mem l false '\n' hmem with h | ⟨_, hf⟩
  · exact absurd h (by decide)
  · exact absurd hf (by decide)

theorem all_ws_of_trimC_nil (l : List Char) (h : trimC l = []) :
    ∀ c ∈ l, isWS c = true := by
  intro c hc
  unfold trimC at h
  rw [List.reverse_eq_nil_iff, List.dropWhile_eq_nil_iff] at h
  have hdrop : ∀ x ∈ l.dropWhile (fun c => isWS c), isWS x = true := by
    intro x hx
    have := h x (List.mem_reverse.mpr hx)
    simpa using this
  have hc2 : c ∈ l.takeWhile (fun c => isWS c) ++ l.dropWhile (fun c => isWS c) := by
    rw [List.takeWhile_append_dropWhile]
    exact hc
  rcases List.mem_append.mp hc2 with h1 | h2
  · simpa using List.mem_takeWhile_imp h1
  · exact hdrop c h2

/-! ### The sentence-level first-occurrence filter: shape and key lemmas -/
theorem dedupSentsGo_mem_shape :
    ∀ (xs seen : List (List Char)) (y : List Char),
      y ∈ dedupSentsGo seen xs → ∃ x ∈ xs, y = trimC x := by
  intro xs
  induction xs with
  | nil => intro seen y h; simp [dedupSentsGo] at h
  | cons s t ih =>
    intro seen y h
    simp only [dedupSentsGo] at h
    by_cases hc : toLowerL (trimC s) ≠ [] ∧ toLowerL (trimC s) ∉ seen
    · rw [if_pos hc] at h
      rcases List.mem_cons.mp h with rfl | h'
      · exact ⟨s, List.mem_cons_self _ _, rfl⟩
      · obtain ⟨x, hx, he⟩ := ih _ y h'
        exact ⟨x, List.mem_cons_of_mem _ hx, he⟩
    · rw [if_neg hc] at h
      obtain ⟨x, hx, he⟩ := ih _ y h
      exact ⟨x, List.mem_cons_of_mem _ hx, he⟩

theorem dedupSentsGo_keys :
    ∀ (xs seen : List (List Char)),
      ((dedupSentsGo seen xs).map toLowerL).Pairwise (fun a b => a ≠ b) ∧
      ∀ y ∈ dedupSentsGo seen xs, toLowerL y ∉ seen ∧ toLowerL y ≠ [] := by
  intro xs
  induction xs with
  | nil =>
    intro seen
    exact ⟨List.Pairwise.nil, by intro y h; simp [dedupSentsGo] at h⟩
  | cons s t ih =>
    intro seen
    simp only [dedupSentsGo]
    by_cases hc : toLowerL (trimC s) ≠ [] ∧ toLowerL (trimC s) ∉ seen
    · rw [if_pos hc]
      obtain ⟨ihp, ihs⟩ := ih (toLowerL (trimC s) :: seen)
      constructor
      · rw [List.map_cons, List.pairwise_cons]
        refine ⟨?_, ihp⟩
        intro k hk
        rw [List.mem_map] at hk
        obtain ⟨y, hy, rfl⟩ := hk
        intro he
        exact (ihs y hy).1 (he ▸ List.mem_cons_self _ _)
      · intro y hy
        rcases List.mem_cons.mp hy with rfl | hy'
        · exact ⟨hc.2, hc.1⟩
        · have h2 := ihs y hy'
          exact ⟨fun hmem => h2.1 (List.mem_cons_of_mem _ hmem), h2.2⟩
    · rw [if_neg hc]
      exact ih seen

theorem dedupSentsGo_keep_all :
    ∀ (xs seen : List (List Char)),
      (∀ x ∈ xs, toLowerL (trimC x) ≠ [] ∧ toLowerL (trimC x) ∉ seen) →
      (xs.map (fun x => toLowerL (trimC x))).Pairwise (fun a b => a ≠ b) →
      dedupSentsGo seen xs = xs.map trimC := by
  intro xs
  induction xs with
  | nil => intro seen _ _; rfl
  | cons s t ih =>
    intro seen hall hp
    simp only [dedupSentsGo]
    rw [if_pos (hall s (List.mem_cons_self _ _)), List.map_cons]
    congr 1
    rw [List.map_cons, List.pairwise_cons] at hp
    apply ih
    · intro x hx
      refine ⟨(hall x (List.mem_cons_of_mem _ hx)).1, ?_⟩
      intro hmem
      rcases List.mem_cons.mp hmem with he | hmem'
      · exact hp.1 (toLowerL (trimC x)) (List.mem_map.mpr ⟨x, hx, rfl⟩) he.symm
      · exact (hall x (List.mem_cons_of_mem _ hx)).2 hmem'
    · exact hp.2

/-! ### The canonical form of `stepA` and the second-run fixpoints -/
theorem stepA_sents_good (l : List Char) :
    ∀ y ∈ dedupSentsGo [] (sentencesOf (trimC (normNL (normWS l)))), SentG y := by
  intro y hy
  obtain ⟨x, hx, rfl⟩ := dedupSentsGo_mem_shape _ _ y hy
  unfold sentencesOf at hx
  rw [List.mem_filter] at hx
  obtain ⟨hxs, hxt⟩ := hx
  have hxt' : trimC x ≠ [] := by simpa using hxt
  have hnn : normNL (normWS l) = normWS l := normNL_id _ (newline_not_in_normWS l)
  have hwsub : ∀ c ∈ trimC (normNL (normWS l)), c ∈ normWS l := by
    intro c hc
    rw [hnn] at hc
    exact trimC_subset _ c hc
  have hwch : (trimC (normNL (normWS l))).Chain' noDbl := by
    rw [hnn]
    exact List.Chain'.infix (chain'_normWS l) (trimC_chunk (normWS l))
  have hxinf : x <:+: trimC (normNL (normWS l)) := splitRuns_piece_chunk isPunct _ x hxs
  have hxnp : ∀ c ∈ x, isPunct c = false :=
    fun c hc => (splitRuns_mem_chars isPunct _ x hxs c hc).1
  refine ⟨hxt', ?_, ?_, ?_, ?_, ?_⟩
  · intro c hc
    exact hxnp c (trimC_subset x c hc)
  · intro c hc hw'
    exact normWS_ws_space l c (hwsub c (hxinf.subset (trimC_subset x c hc))) hw'
  · exact List.Chain'.infix hwch (List.IsInfix.trans (trimC_chunk x) hxinf)
  · intro c hc
    obtain ⟨x0, t0, he, hx0⟩ := trimC_ne_head x hxt'
    rw [he, List.head?_cons] at hc
    injection hc with hc
    subst hc
    exact hx0
  · intro c hc
    obtain ⟨c0, he, hc0⟩ := trimC_last x hxt'
    rw [he] at hc
    injection hc with hc
    subst hc
    exact hc0

theorem step4_join (y : List Char) (yt : List (List Char))
    (hsg : ∀ z ∈ y :: yt, SentG z) :
    step4 (joinSep ['.', ' '] (y :: yt)) = joinSep ['.', ' '] (y :: yt) := by
  unfold step4
  rw [fixDD_join (y :: yt) hsg,
    normWS_id _ (join_ws_space (y :: yt) hsg) (chain'_joinSep (y :: yt) hsg),
    fixPS_join (y :: yt) hsg]
  exact trimC_eq_self _ (fun c hc => (join_head_ok y yt hsg c hc).1)
    (fun c hc => (join_last_ok y yt hsg c hc).1)

theorem step5_join (y : List Char) (yt : List (List Char))
    (hsg : ∀ z ∈ y :: yt, SentG z) :
    step5 (joinSep ['.', ' '] (y :: yt)) = joinSep ['.', ' '] (y :: yt) ++ ['.'] := by
  have hne : joinSep ['.', ' '] (y :: yt) ≠ [] :=
    joinSep_ne_nil _ y yt (hsg y (List.mem_cons_self _ _)).ne
  have hep : endsPunct (joinSep ['.', ' '] (y :: yt)) = false := by
    unfold endsPunct
    cases hg : (joinSep ['.', ' '] (y :: yt)).getLast? with
    | none => rfl
    | some c => exact (join_last_ok y yt hsg c hg).2
  unfold step5
  rw [if_pos ⟨hne, hep⟩]

theorem filter_map_space (yt : List (List Char)) (h : ∀ z ∈ yt, trimC z ≠ []) :
    (yt.map (fun z => ' ' :: z) ++ [[]]).filter (fun s => trimC s ≠ []) =
      yt.map (fun z => ' ' :: z) := by
  induction yt with
  | nil => rfl
  | cons z zt ih =>
    have hc : decide (trimC (' ' :: z) ≠ []) = true :=
      decide_eq_true (by
        rw [trimC_cons_ws ' ' z (by decide)]
        exact h z (List.mem_cons_self _ _))
    rw [List.map_cons, List.cons_append, List.filter_cons, if_pos hc,
      ih (fun w hw => h w (List.mem_cons_of_mem _ hw))]

theorem stepA_round (y : List Char) (yt : List (List Char))
    (hsg : ∀ z ∈ y :: yt, SentG z)
    (hpw : ((y :: yt).map toLowerL).Pairwise (fun a b => a ≠ b)) :
    stepA (joinSep ['.', ' '] (y :: yt) ++ ['.']) = joinSep ['.', ' '] (y :: yt) := by
  have hne : joinSep ['.', ' '] (y :: yt) ≠ [] :=
    joinSep_ne_nil _ y yt (hsg y (List.mem_cons_self _ _)).ne
  have hchars : ∀ c ∈ joinSep ['.', ' '] (y :: yt) ++ ['.'], isWS c = true → c = ' ' := by
    intro c hc hw'
    rcases List.mem_append.mp hc with hc | hc
    · exact join_ws_space (y :: yt) hsg c hc hw'
    · rw [List.mem_singleton] at hc
      subst hc
      exact absurd hw' (by decide)
  have hch : (joinSep ['.', ' '] (y :: yt) ++ ['.']).Chain' noDbl := by
    rw [List.chain'_append]
    refine ⟨chain'_joinSep (y :: yt) hsg, List.chain'_singleton _, ?_⟩
    intro a _ b hb
    simp only [List.head?_cons, Option.mem_def, Option.some.injEq] at hb
    subst hb
    intro hand
    exact absurd hand.2 (by decide)
  have hhead_all : ∀ c, (joinSep ['.', ' '] (y :: yt) ++ ['.']).head? = some c →
      isWS c = false := by
    intro c hc
    cases hje : joinSep ['.', ' '] (y :: yt) with
    | nil => exact absurd hje hne
    | cons d j' =>
      rw [hje, List.cons_append, List.head?_cons] at hc
      injection hc with hc
      subst hc
      exact (join_head_ok y yt hsg d (by rw [hje]; rfl)).1
  have hlast_all : ∀ c, (joinSep ['.', ' '] (y :: yt) ++ ['.']).getLast? = some c →
      isWS c = false := by
    intro c hc
    rw [getLast?_append_right _ ['.'] (by simp)] at hc
    have he : ('.' : Char) = c := by simpa using hc
    subst he
    decide
  have h1 : normWS (joinSep ['.', ' '] (y :: yt) ++ ['.']) =
      joinSep ['.', ' '] (y :: yt) ++ ['.'] := normWS_id _ hchars hch
  have h2 : normNL (joinSep ['.', ' '] (y :: yt) ++ ['.']) =
      joinSep ['.', ' '] (y :: yt) ++ ['.'] := by
    apply normNL_id
    intro hmem
    exact absurd (hchars '\n' hmem (by decide)) (by decide)
  have h3 : trimC (joinSep ['.', ' '] (y :: yt) ++ ['.']) =
      joinSep ['.', ' '] (y :: yt) ++ ['.'] := trimC_eq_self _ hhead_all hlast_all
  have hfy : ∀ z ∈ y :: yt, trimC z = z := fun z hz =>
    trimC_eq_self z (hsg z hz).headOK (hsg z hz).lastOK
  have hsplit := splitRuns_join_dot yt y
    (fun z hz => ⟨(hsg z hz).ne, (hsg z hz).npunct⟩)
  have hcondy : decide (trimC y ≠ []) = true :=
    decide_eq_true (by
      rw [hfy y (List.mem_cons_self _ _)]
      exact (hsg y (List.mem_cons_self _ _)).ne)
  have hfilter : (y :: (yt.map (fun z => ' ' :: z) ++ [[]])).filter
      (fun s => trimC s ≠ []) = y :: yt.map (fun z => ' ' :: z) := by
    rw [List.filter_cons, if_pos hcondy,
      filter_map_space yt (fun z hz => by
        rw [hfy z (List.mem_cons_of_mem _ hz)]
        exact (hsg z (List.mem_cons_of_mem _ hz)).ne)]
  have hkeys : ∀ x ∈ y :: yt.map (fun z => ' ' :: z),
      toLowerL (trimC x) ≠ [] ∧ toLowerL (trimC x) ∉ ([] : List (List Char)) := by
    intro x hx
    refine ⟨?_, by simp⟩
    rcases List.mem_cons.mp hx with rfl | hx'
    · rw [hfy x (List.mem_cons_self _ _)]
      intro he
      exact (hsg x (List.mem_cons_self _ _)).ne (List.map_eq_nil_iff.mp he)
    · obtain ⟨z, hz, rfl⟩ := List.mem_map.mp hx'
      rw [trimC_cons_ws ' ' z (by decide), hfy z (List.mem_cons_of_mem _ hz)]
      intro he
      exact (hsg z (List.mem_cons_of_mem _ hz)).ne (List.map_eq_nil_iff.mp he)
  have hkeymap : (y :: yt.map (fun z => ' ' :: z)).map (fun x => toLowerL (trimC x)) =
      (y :: yt).map toLowerL := by
    simp only [List.map_cons, List.map_map]
    rw [hfy y (List.mem_cons_self _ _)]
    congr 1
    apply List.map_congr_left
    intro z hz
    show toLowerL (trimC (' ' :: z)) = toLowerL z
    rw [trimC_cons_ws ' ' z (by decide), hfy z (List.mem_cons_of_mem _ hz)]
  have hded : dedupSentsGo [] (y :: yt.map (fun z => ' ' :: z)) =
      (y :: yt.map (fun z => ' ' :: z)).map trimC := by
    apply dedupSentsGo_keep_all
    · exact hkeys
    · rw [hkeymap]
      exact hpw
  have hmapid : (y :: yt.map (fun z => ' ' :: z)).map trimC = y :: yt := by
    simp only [List.map_cons, List.map_map]
    rw [hfy y (List.mem_cons_self _ _)]
    congr 1
    calc yt.map (trimC ∘ fun z => ' ' :: z)
        = yt.map id := List.map_congr_left (fun z hz => by
          show trimC (' ' :: z) = z
          rw [trimC_cons_ws ' ' z (by decide)]
          exact hfy z (List.mem_cons_of_mem _ hz))
      _ = yt := List.map_id yt
  unfold stepA
  rw [h1, h2, h3]
  unfold sentencesOf
  rw [hsplit, hfilter, hded, hmapid]

theorem cleanL_of_stepA_nil (l : List Char) (h : stepA l = []) :
    cleanTranscriptL l = [] := by
  unfold cleanTranscriptL
  rw [h]
  by_cases ht : trimC l = []
  · rw [if_pos ht]
  · rw [if_neg ht]
    rfl

/-! ## Claim theorems -/
/-- C6: `cleanTranscript` returns the empty string on every whitespace-only
input (no terminal punctuation is appended to empty output), and every
non-empty output ends in one of `.`, `!`, `?`. -/
theorem C6_empty_input_and_terminal_punct :
    (∀ s : String, (∀ c ∈ s.data, isWS c = true) → cleanTranscript s = "") ∧
    (∀ s : String, cleanTranscript s ≠ "" →
      ∃ c, (cleanTranscript s).data.getLast? = some c ∧ isPunct c = true) := by
  constructor
  · intro s h
    unfold cleanTranscript cleanTranscriptL
    rw [if_pos (trimC_of_all_ws h)]
  · intro s h
    have hne : cleanTranscriptL s.data ≠ [] := by
      intro heq
      exact h (by unfold cleanTranscript; rw [mk_eq_empty_iff]; exact heq)
    have hdata : (cleanTranscript s).data = cleanTranscriptL s.data := rfl
    rw [hdata]
    unfold cleanTranscriptL at hne ⊢
    by_cases htrim : trimC s.data = []
    · rw [if_pos htrim] at hne; exact absurd rfl hne
    · rw [if_neg htrim] at hne ⊢
      set x := step4 (ngramStage (stepA s.data)) with hx
      unfold step5 at hne ⊢
      by_cases hc : x ≠ [] ∧ endsPunct x = false
      · rw [if_pos hc]
        exact ⟨'.', List.getLast?_concat _, rfl⟩
      · rw [if_neg hc] at hne ⊢
        push_neg at hc
        by_cases hxe : x = []
        · exact absurd hxe hne
        · have hep : endsPunct x = true := by
            have h2 := hc hxe
            cases h3 : endsPunct x
            · exact absurd h3 h2
            · rfl
          unfold endsPunct at hep
          cases hg : x.getLast? with
          | none => rw [hg] at hep; simp at hep
          | some c =>
            rw [hg] at hep
            exact ⟨c, rfl, hep⟩

theorem getD_range_map (f : Nat → List Char) (m t : Nat) (h : t < m) :
    ((List.range m).map f).getD t [] = f t := by
  rw [List.getD_eq_getElem _ _ (by simpa using h)]
  simp

/-- C3: the n-gram deduplication runs once per n in the order 5, 4, 3, 2;
each pass splits the current text on whitespace, forms the case-normalised
windows `gramAt`, deletes exactly the word positions covered by some
occurrence of a window that already occurred earlier (union over all such
windows, first occurrences never flagging), and rejoins the survivors with
single spaces; on `"the quick brown fox the quick brown fox jumps"` the
repeated run collapses to one copy followed by `"jumps"`. -/
theorem C3_ngram_dedup :
    (∀ l, ngramStage l = removeNG 2 (removeNG 3 (removeNG 4 (removeNG 5 l)))) ∧
    (∀ (text : List Char) (n : Nat),
      removeNG n text =
        joinSep [' ']
          ((((splitRuns isWS text).enum.filter
            (fun p => p.1 ∉
              ngScan n
                ((List.range ((splitRuns isWS text).length + 1 - n)).map
                  (gramAt (splitRuns isWS text) n)) 0 []
                ((List.range ((splitRuns isWS text).length + 1 - n)).map
                  (gramAt (splitRuns isWS text) n)))).map Prod.snd))) ∧
    (∀ (words : List (List Char)) (n i : Nat),
      i ∈ ngScan n
            ((List.range (words.length + 1 - n)).map (gramAt words n)) 0 []
            ((List.range (words.length + 1 - n)).map (gramAt words n)) ↔
        ∃ t, t < words.length + 1 - n ∧
          (∃ u, u < t ∧ gramAt words n u = gramAt words n t) ∧
          t ≤ i ∧ i < t + n) ∧
    (⟨ngramStage "the quick brown fox the quick brown fox jumps".data⟩ : String)
      = "the quick brown fox jumps" ∧
    cleanTranscript "the quick brown fox the quick brown fox jumps"
      = "the quick brown fox jumps." := by
  refine ⟨fun _ => rfl, fun _ _ => rfl, ?_, by decide, by decide⟩
  intro words n i
  rw [ngScan_mem]
  constructor
  · rintro ⟨t, ht, hcount, hd, he, hf⟩
    simp only [List.length_map, List.length_range] at ht
    rcases hd with hseen | ⟨u, hu, hequ⟩
    · exact absurd hseen (List.not_mem_nil _)
    · rw [getD_range_map _ _ _ (by omega), getD_range_map _ _ _ ht] at hequ
      exact ⟨t, ht, ⟨u, hu, hequ⟩, by omega, by omega⟩
  · rintro ⟨t, ht, ⟨u, hu, hequ⟩, he, hf⟩
    have hlen : t < ((List.range (words.length + 1 - n)).map (gramAt words n)).length := by
      simpa using ht
    refine ⟨t, hlen, ?_, Or.inr ⟨u, hu, ?_⟩, by omega, by omega⟩
    · apply count_two_of_dup _ u t hu hlen
      rw [getD_range_map _ _ _ (by omega), getD_range_map _ _ _ ht]
      exact hequ
    · rw [getD_range_map _ _ _ (by omega), getD_range_map _ _ _ ht]
      exact hequ

/-- Witness for C6 at concrete inputs. -/
theorem C6_witness :
    cleanTranscript " \t " = "" ∧
    (∃ c, (cleanTranscript "a").data.getLast? = some c ∧ isPunct c = true) :=
  ⟨C6_empty_input_and_terminal_punct.1 " \t " (by decide),
   C6_empty_input_and_terminal_punct.2 "a" (by decide)⟩

/-- C8: in the cue-line cleaning of `parseVTTContent`, `<...>` tags are
stripped before HTML entities are decoded, so entity-encoded brackets
survive as literal characters: `"Tom &amp; Jerry &lt;laughs&gt;"` becomes
`"Tom & Jerry <laughs>"`, and the full parser output on a document holding
that cue line is `"Tom & Jerry <laughs>."`. -/
theorem C8_tag_strip_before_entity_decode :
    cleanCueLine "Tom &amp; Jerry &lt;laughs&gt;".data = "Tom & Jerry <laughs>".data ∧
    parseVTTContent "WEBVTT\n\n00:00:00.000 --> 00:00:01.000\nTom &amp; Jerry &lt;laughs&gt;\n"
      = "Tom & Jerry <laughs>." := by
  exact ⟨by decide, by decide⟩

/-- C5: the blank-line reset of the in-cue flag is dead code - a blank line
is consumed by the first `continue`, so after the first timestamp line the
flag stays set and the bare identifier `2` of the second cue block is
collected as cue text instead of being skipped: the parser output contains
the stray `2`. -/
theorem C5_cue_identifier_leaks_into_text :
    parseVTTContent
      "WEBVTT\n\n1\n00:00:00.000 --> 00:00:01.000\nfoo\n\n2\n00:00:01.000 --> 00:00:02.000\nbar\n"
      = "foo 2 bar." := by
  decide

/-- C2 counterexample: `cleanTranscript` is not idempotent.  On
`"b.b b b."` one application yields `"b. b."` (the n-gram pass turns the
sentences `"b"` and `"b b b"` into `"b"` and `"b"`), and a second
application deduplicates the newly equal sentences down to `"b."`. -/
theorem C2_counterexample :
    cleanTranscript "b.b b b." = "b. b." ∧
    cleanTranscript "b. b." = "b." ∧
    cleanTranscript (cleanTranscript "b.b b b.") ≠ cleanTranscript "b.b b b." := by
  refine ⟨by decide, by decide, by decide⟩

theorem dedupExactGo_eq_keepFirsts_filter :
    ∀ (xs : List (List Char)) (seen : List (List Char)),
      dedupExactGo seen xs = keepFirsts (xs.filter (fun y => y ∉ seen)) := by
  intro xs
  induction xs with
  | nil => intro seen; rfl
  | cons s t ih =>
    intro seen
    simp only [dedupExactGo, List.filter_cons]
    by_cases hs : s ∈ seen
    · rw [if_pos hs, if_neg (by simpa using hs)]
      exact ih seen
    · rw [if_neg hs, if_pos (by simpa using hs), keepFirsts_cons]
      rw [ih (s :: seen), List.filter_filter]
      congr 1
      congr 1
      apply List.filter_congr
      intro y _
      simp only [List.mem_cons, decide_not]
      by_cases h1 : y ∈ seen
      · simp [h1]
      · by_cases h2 : y = s <;> simp [h1, h2]

/-- The implemented final pass keeps exactly the first occurrence of each
sentence under exact equality. -/
theorem dedupExactGo_eq_keepFirsts (xs : List (List Char)) :
    dedupExactGo [] xs = keepFirsts xs := by
  rw [dedupExactGo_eq_keepFirsts_filter xs []]
  congr 1
  apply List.filter_eq_self.mpr
  intro a _
  simp

/-- C4 (amended): the final stage-local pass of `parseVTTContent` splits the
joined cue text on sentence-ending punctuation, keeps only the first
occurrence of each whitespace-trimmed sentence under exact
(case-sensitive) comparison, preserving order, rejoins with `". "`, and
appends a trailing period whenever any content survived. -/
theorem C4_amended_exact_dedup (doc : String) :
    parseVTTContent doc =
      ⟨(let sentences :=
          ((splitRuns isPunct (trimC (normWS (joinSep [' ']
            (vttLoop false (splitChar '\n' doc.data)))))).filter
              (fun s => trimC s ≠ [])).map trimC
        let uniq := keepFirsts sentences
        trimC (joinSep ['.', ' '] uniq) ++ (if uniq.length > 0 then ['.'] else []))⟩ := by
  unfold parseVTTContent parseVTTL
  simp only [dedupExactGo_eq_keepFirsts]

/-! ### Lemmas about the URL pattern matchers -/
theorem stripLit_eq_some_iff :
    ∀ (p l r : List Char), stripLit p l = some r ↔ l = p ++ r := by
  intro p
  induction p with
  | nil =>
    intro l r
    simp [stripLit]
  | cons a p' ih =>
    intro l r
    cases l with
    | nil => simp [stripLit]
    | cons c cs =>
      simp only [stripLit, List.cons_append, List.cons.injEq]
      by_cases hca : c = a
      · subst hca
        rw [if_pos rfl, ih]
        simp
      · rw [if_neg hca]
        simp [hca]

theorem stripLit_self (p r : List Char) : stripLit p (p ++ r) = some r :=
  (stripLit_eq_some_iff p _ r).mpr rfl

theorem takeWhile_ne_nil_iff (q : Char → Bool) (rest : List Char) :
    rest.takeWhile q ≠ [] ↔
      ∃ id post, rest = id ++ post ∧ id ≠ [] ∧ ∀ c ∈ id, q c = true := by
  constructor
  · intro h
    exact ⟨rest.takeWhile q, rest.dropWhile q,
      (List.takeWhile_append_dropWhile q rest).symm, h,
      fun c hc => List.mem_takeWhile_imp hc⟩
  · rintro ⟨id, post, rfl, hne, hall⟩
    cases id with
    | nil => exact absurd rfl hne
    | cons d dt =>
      rw [List.cons_append, List.takeWhile_cons, if_pos (by simp [hall d (by simp)])]
      simp

theorem capAfter_eq_some_iff (m l g : List Char) :
    capAfter m l = some g ↔
      ∃ rest, l = m ++ rest ∧ g = rest.takeWhile allowedIdChar ∧ g ≠ [] := by
  unfold capAfter
  constructor
  · intro h
    rw [Option.bind_eq_some] at h
    obtain ⟨rest, h1, h2⟩ := h
    rw [stripLit_eq_some_iff] at h1
    dsimp only at h2
    split at h2
    · exact Option.noConfusion h2
    · injection h2 with h2
      exact ⟨rest, h1, h2.symm, by rw [← h2] at *; assumption⟩
  · rintro ⟨rest, rfl, rfl, hne⟩
    rw [stripLit_self]
    simp only [Option.some_bind]
    rw [if_neg hne]

theorem capAfter_ne_none_iff (m l : List Char) :
    capAfter m l ≠ none ↔
      ∃ id post, l = m ++ id ++ post ∧ id ≠ [] ∧
        ∀ c ∈ id, allowedIdChar c = true := by
  constructor
  · intro h
    cases hc : capAfter m l with
    | none => exact absurd hc h
    | some g =>
      obtain ⟨rest, rfl, rfl, hne⟩ := (capAfter_eq_some_iff m l g).mp hc
      obtain ⟨id, post, heq, hid, hall⟩ := (takeWhile_ne_nil_iff allowedIdChar rest).mp hne
      exact ⟨id, post, by rw [heq, List.append_assoc], hid, hall⟩
  · rintro ⟨id, post, rfl, hid, hall⟩
    intro hnone
    have h2 : capAfter m (m ++ (id ++ post)) = none := by
      rw [← List.append_assoc]
      exact hnone
    unfold capAfter at h2
    rw [stripLit_self] at h2
    simp only [Option.some_bind] at h2
    split at h2
    · rename_i hempty
      exact (takeWhile_ne_nil_iff allowedIdChar (id ++ post)).mpr
        ⟨id, post, rfl, hid, hall⟩ hempty
    · exact Option.noConfusion h2

theorem p1At_eq_none_iff (l : List Char) :
    p1At l = none ↔
      capAfter marker1 l = none ∧ capAfter marker2 l = none ∧
      capAfter marker3 l = none := by
  unfold p1At
  cases h1 : capAfter marker1 l with
  | some g => simp [h1]
  | none =>
    cases h2 : capAfter marker2 l with
    | some g => simp [h2]
    | none => simp [h1, h2]

theorem p1At_none_iff_not_here (l : List Char) :
    p1At l = none ↔ ¬ P1Here l := by
  rw [p1At_eq_none_iff]
  constructor
  · rintro ⟨h1, h2, h3⟩ ⟨m, id, post, heq, hm, hid, hall⟩
    rcases hm with rfl | rfl | rfl
    · exact (capAfter_ne_none_iff marker1 l).mpr ⟨id, post, heq, hid, hall⟩ h1
    · exact (capAfter_ne_none_iff marker2 l).mpr ⟨id, post, heq, hid, hall⟩ h2
    · exact (capAfter_ne_none_iff marker3 l).mpr ⟨id, post, heq, hid, hall⟩ h3
  · intro h
    refine ⟨?_, ?_, ?_⟩
    · cases hc : capAfter marker1 l with
      | none => rfl
      | some g =>
        exfalso
        obtain ⟨id, post, heq, hid, hall⟩ :=
          (capAfter_ne_none_iff marker1 l).mp (by rw [hc]; simp)
        exact h ⟨marker1, id, post, heq, Or.inl rfl, hid, hall⟩
    · cases hc : capAfter marker2 l with
      | none => rfl
      | some g =>
        exfalso
        obtain ⟨id, post, heq, hid, hall⟩ :=
          (capAfter_ne_none_iff marker2 l).mp (by rw [hc]; simp)
        exact h ⟨marker2, id, post, heq, Or.inr (Or.inl rfl), hid, hall⟩
    · cases hc : capAfter marker3 l with
      | none => rfl
      | some g =>
        exfalso
        obtain ⟨id, post, heq, hid, hall⟩ :=
          (capAfter_ne_none_iff marker3 l).mp (by rw [hc]; simp)
        exact h ⟨marker3, id, post, heq, Or.inr (Or.inr rfl), hid, hall⟩

theorem p1Search_none_iff (l : List Char) :
    p1Search l = none ↔ ¬ P1Shape l := by
  induction l with
  | nil =>
    constructor
    · rintro _ ⟨pre, m, id, post, heq, hm, hid, _⟩
      have hlen := congrArg List.length heq
      simp only [List.length_nil, List.length_append] at hlen
      have hidlen : 0 < id.length := List.length_pos.mpr hid
      omega
    · intro _; rfl
  | cons c t ih =>
    have hsplit : p1Search (c :: t) = none ↔
        p1At (c :: t) = none ∧ p1Search t = none := by
      cases hp : p1At (c :: t) with
      | some g =>
        simp only [p1Search, hp]
        simp
      | none =>
        simp only [p1Search, hp]
        simp
    rw [hsplit, p1At_none_iff_not_here, ih]
    constructor
    · rintro ⟨hh, hs⟩ ⟨pre, m, id, post, heq, hm, hid, hall⟩
      cases pre with
      | nil => exact hh ⟨m, id, post, by simpa using heq, hm, hid, hall⟩
      | cons p0 pre' =>
        apply hs
        refine ⟨pre', m, id, post, ?_, hm, hid, hall⟩
        have h2 := heq
        simp only [List.cons_append, List.cons.injEq] at h2
        exact h2.2
    · intro hn
      constructor
      · rintro ⟨m, id, post, heq, hm, hid, hall⟩
        exact hn ⟨[], m, id, post, by simpa using heq, hm, hid, hall⟩
      · rintro ⟨pre, m, id, post, heq, hm, hid, hall⟩
        exact hn ⟨c :: pre, m, id, post, by simp [heq], hm, hid, hall⟩

theorem take_all_of_le_takeWhile {p : Char → Bool} (r : List Char) (q : Nat)
    (hq : q ≤ (r.takeWhile p).length) : ∀ c ∈ r.take q, p c = true := by
  intro c hc
  have h1 : r.take q = (r.takeWhile p).take q := by
    conv_lhs => rw [← List.takeWhile_append_dropWhile p r]
    rw [List.take_append_of_le_length hq]
  rw [h1] at hc
  exact List.mem_takeWhile_imp (List.take_subset q _ hc)

theorem p2After_none_iff (r : List Char) :
    p2After r = none ↔
      ¬ ∃ gap id post, r = gap ++ "v=".data ++ id ++ post ∧
        (∀ c ∈ gap, dotChar c = true) ∧
        id ≠ [] ∧ ∀ c ∈ id, allowedIdChar c = true := by
  simp only [p2After]
  rw [List.findSome?_eq_none_iff]
  constructor
  · rintro hall ⟨gap, id, post, heq, hgap, hid, hallid⟩
    have hgall : ∀ c ∈ gap, dotChar c = true := hgap
    have hlen : gap.length ≤ (r.takeWhile (fun c => dotChar c)).length := by
      rw [heq]
      simp only [List.append_assoc]
      rw [List.takeWhile_append_of_pos hgall]
      simp
    have hmem : gap.length ∈
        (List.range ((r.takeWhile (fun c => dotChar c)).length + 1)).reverse := by
      rw [List.mem_reverse, List.mem_range]
      omega
    have h1 := hall gap.length hmem
    have hdrop : r.drop gap.length = "v=".data ++ id ++ post := by
      rw [heq]
      simp only [List.append_assoc]
      exact List.drop_left gap _
    rw [hdrop] at h1
    exact (capAfter_ne_none_iff _ _).mpr ⟨id, post, rfl, hid, hallid⟩ h1
  · intro hn qn hqmem
    cases hc : capAfter "v=".data (r.drop qn) with
    | none => rfl
    | some g =>
      exfalso
      rw [List.mem_reverse, List.mem_range] at hqmem
      obtain ⟨id, post, hdropeq, hid, hallid⟩ :=
        (capAfter_ne_none_iff _ _).mp (by rw [hc]; simp)
      apply hn
      refine ⟨r.take qn, id, post, ?_, ?_, hid, hallid⟩
      · conv_lhs => rw [← List.take_append_drop qn r]
        rw [hdropeq]
        simp [List.append_assoc]
      · intro c hcm
        exact take_all_of_le_takeWhile (p := fun c => dotChar c) r qn (by omega) c hcm

theorem p2At_none_iff_not_here (l : List Char) :
    p2At l = none ↔ ¬ P2Here l := by
  unfold p2At
  cases hs : stripLit watchQ l with
  | none =>
    simp only [Option.none_bind]
    constructor
    · rintro _ ⟨gap, id, post, heq, _, _, _⟩
      have h2 := (stripLit_eq_some_iff watchQ l
        (gap ++ ("v=".data ++ (id ++ post)))).mpr
        (by rw [heq]; simp [List.append_assoc])
      rw [hs] at h2
      exact Option.noConfusion h2
    · intro _; trivial
  | some r0 =>
    rw [stripLit_eq_some_iff] at hs
    subst hs
    simp only [Option.some_bind]
    rw [p2After_none_iff]
    constructor
    · rintro h ⟨gap, id, post, heq, hgap, hid, hall⟩
      apply h
      refine ⟨gap, id, post, ?_, hgap, hid, hall⟩
      have h2 : watchQ ++ r0 = watchQ ++ (gap ++ ("v=".data ++ (id ++ post))) := by
        rw [heq]; simp [List.append_assoc]
      have h3 := List.append_cancel_left h2
      rw [h3]
      simp [List.append_assoc]
    · rintro h ⟨gap, id, post, heq, hgap, hid, hall⟩
      exact h ⟨gap, id, post, by rw [heq]; simp [List.append_assoc], hgap, hid, hall⟩

theorem p2Search_none_iff (l : List Char) :
    p2Search l = none ↔ ¬ P2Shape l := by
  induction l with
  | nil =>
    constructor
    · rintro _ ⟨pre, gap, id, post, heq, _, hid, _⟩
      have hlen := congrArg List.length heq
      simp only [List.length_nil, List.length_append] at hlen
      have hidlen : 0 < id.length := List.length_pos.mpr hid
      omega
    · intro _; rfl
  | cons c t ih =>
    have hsplit : p2Search (c :: t) = none ↔
        p2At (c :: t) = none ∧ p2Search t = none := by
      cases hp : p2At (c :: t) with
      | some g =>
        simp only [p2Search, hp]
        simp
      | none =>
        simp only [p2Search, hp]
        simp
    rw [hsplit, p2At_none_iff_not_here, ih]
    constructor
    · rintro ⟨hh, hs⟩ ⟨pre, gap, id, post, heq, hgap, hid, hall⟩
      cases pre with
      | nil => exact hh ⟨gap, id, post, by simpa using heq, hgap, hid, hall⟩
      | cons p0 pre' =>
        apply hs
        refine ⟨pre', gap, id, post, ?_, hgap, hid, hall⟩
        have h2 := heq
        simp only [List.cons_append, List.cons.injEq] at h2
        exact h2.2
    · intro hn
      constructor
      · rintro ⟨gap, id, post, heq, hgap, hid, hall⟩
        exact hn ⟨[], gap, id, post, by simpa using heq, hgap, hid, hall⟩
      · rintro ⟨pre, gap, id, post, heq, hgap, hid, hall⟩
        exact hn ⟨c :: pre, gap, id, post, by simp [heq], hgap, hid, hall⟩

theorem extractVideoIdE_error_iff (url : String) :
    extractVideoIdE url = .error .invalidUrl ↔
      ¬ (P1Shape url.data ∨ P2Shape url.data) := by
  unfold extractVideoIdE
  cases h1 : p1Search url.data with
  | some g =>
    constructor
    · intro hcontra
      exact Except.noConfusion hcontra
    · intro hn
      exfalso
      apply hn
      left
      by_contra hnp
      rw [← p1Search_none_iff] at hnp
      rw [h1] at hnp
      exact Option.noConfusion hnp
  | none =>
    cases h2 : p2Search url.data with
    | some g =>
      constructor
      · intro hcontra
        exact Except.noConfusion hcontra
      · intro hn
        exfalso
        apply hn
        right
        by_contra hnp
        rw [← p2Search_none_iff] at hnp
        rw [h2] at hnp
        exact Option.noConfusion hnp
    | none =>
      constructor
      · rintro _ (hp1 | hp2)
        · exact (p1Search_none_iff url.data).mp h1 hp1
        · exact (p2Search_none_iff url.data).mp h2 hp2
      · intro _; rfl

/-! ### Positive behaviour of the extractor on the canonical URL shapes -/
theorem p1At_not_y (a : Char) (t : List Char) (ha : a ≠ 'y') :
    p1At (a :: t) = none := by
  have h1 : stripLit marker1 (a :: t) = none := by
    have hm : marker1 = 'y' :: "outube.com/watch?v=".data := rfl
    rw [hm]
    simp [stripLit, ha]
  have h2 : stripLit marker2 (a :: t) = none := by
    have hm : marker2 = 'y' :: "outu.be/".data := rfl
    rw [hm]
    simp [stripLit, ha]
  have h3 : stripLit marker3 (a :: t) = none := by
    have hm : marker3 = 'y' :: "outube.com/embed/".data := rfl
    rw [hm]
    simp [stripLit, ha]
  unfold p1At capAfter
  rw [h1, h2, h3]
  rfl

theorem p1Search_skip (pre : List Char) (hpre : ∀ c ∈ pre, c ≠ 'y') :
    ∀ l, p1Search (pre ++ l) = p1Search l := by
  induction pre with
  | nil => intro l; rfl
  | cons a pre' ih =>
    intro l
    rw [List.cons_append]
    simp only [p1Search, p1At_not_y a _ (hpre a (List.mem_cons_self _ _))]
    exact ih (fun c hc => hpre c (List.mem_cons_of_mem _ hc)) l

theorem p1Search_at_head {l g : List Char} (hne : l ≠ []) (h : p1At l = some g) :
    p1Search l = some g := by
  cases l with
  | nil => exact absurd rfl hne
  | cons c t => simp only [p1Search, h]

theorem capAfter_self (m rest : List Char) (hne : rest.takeWhile allowedIdChar ≠ []) :
    capAfter m (m ++ rest) = some (rest.takeWhile allowedIdChar) := by
  unfold capAfter
  rw [stripLit_self]
  simp only [Option.some_bind]
  rw [if_neg hne]

theorem p1At_marker1 (rest : List Char) (hne : rest.takeWhile allowedIdChar ≠ []) :
    p1At (marker1 ++ rest) = some (rest.takeWhile allowedIdChar) := by
  unfold p1At
  rw [capAfter_self marker1 rest hne]

theorem p1At_marker2 (rest : List Char) (hne : rest.takeWhile allowedIdChar ≠ []) :
    p1At (marker2 ++ rest) = some (rest.takeWhile allowedIdChar) := by
  unfold p1At
  have h0 : capAfter marker1 (marker2 ++ rest) = none := by
    unfold capAfter
    have h : stripLit marker1 (marker2 ++ rest) = none := rfl
    rw [h]
    rfl
  rw [h0, capAfter_self marker2 rest hne]

theorem p1At_marker3 (rest : List Char) (hne : rest.takeWhile allowedIdChar ≠ []) :
    p1At (marker3 ++ rest) = some (rest.takeWhile allowedIdChar) := by
  unfold p1At
  have h0 : capAfter marker1 (marker3 ++ rest) = none := by
    unfold capAfter
    have h : stripLit marker1 (marker3 ++ rest) = none := rfl
    rw [h]
    rfl
  have h0' : capAfter marker2 (marker3 ++ rest) = none := by
    unfold capAfter
    have h : stripLit marker2 (marker3 ++ rest) = none := rfl
    rw [h]
    rfl
  rw [h0, h0', capAfter_self marker3 rest hne]

theorem takeWhile_id_post (id post : List Char) (hall : ∀ c ∈ id, allowedIdChar c = true)
    (hpost : ∀ c ∈ post.take 1, allowedIdChar c = false) :
    (id ++ post).takeWhile allowedIdChar = id := by
  rw [List.takeWhile_append_of_pos hall]
  have hp : post.takeWhile allowedIdChar = [] := by
    cases post with
    | nil => rfl
    | cons d dt =>
      rw [List.takeWhile_cons, if_neg (by simp [hpost d (by simp)])]
  rw [hp, List.append_nil]

theorem marker_ne_nil_append (m rest : List Char) (hm : m ≠ []) : m ++ rest ≠ [] :=
  List.append_ne_nil_of_left_ne_nil hm rest

theorem winsAt_iff (b : Behavior) (i : Nat) : winsAt b i ↔ winsAtC b i := by
  unfold winsAt winsAtC
  constructor
  · rintro ⟨c, h1, h2⟩
    exact ⟨c, h1, (parse_trim_iff_clean c).mpr h2⟩
  · rintro ⟨c, h1, h2⟩
    exact ⟨c, h1, (parse_trim_iff_clean c).mp h2⟩

/-- C1: for every behavior of the retrieval collaborator, `getTranscript`
tries English-auto, English-manual, Polish-auto, Polish-manual in that
fixed order; the first candidate whose downloaded document parses and
cleans to non-empty text is returned immediately as the cleaned text with
that candidate's language code, exactly the candidates up to the winner
having been attempted; per-candidate failures are swallowed; if no
candidate wins, the `noSubtitlesAvailable` `YouTubeError` is raised after
attempting all four. -/
theorem C1_fixed_order_first_success :
    configs.map (fun c => (c.lang, c.auto)) =
      [("en", true), ("en", false), ("pl", true), ("pl", false)] ∧
    ∀ (url vid : String) (b : Behavior) (fs : FS),
      extractVideoIdE url = .ok vid →
      ((∀ (k : Nat) (hk : k < configs.length) (c : String),
          docAt b k = some c →
          cleanTranscript (parseVTTContent c) ≠ "" →
          (∀ j, j < k → ¬ winsAt b j) →
          (getTranscriptM url b fs).1 =
            .ok ⟨cleanTranscript (parseVTTContent c), some (configs.get ⟨k, hk⟩).lang⟩ ∧
          (getTranscriptM url b fs).2.2 = configs.take (k + 1)) ∧
        ((∀ j, j < configs.length → ¬ winsAt b j) →
          (getTranscriptM url b fs).1 = .error .noSubtitlesAvailable ∧
          (getTranscriptM url b fs).2.2 = configs)) := by
  refine ⟨rfl, ?_⟩
  intro url vid b fs hurl
  have hg : getTranscriptM url b fs = runCandidates b vid 0 fs configs := by
    unfold getTranscriptM
    rw [hurl]
  constructor
  · intro k hk c hdoc hclean hprev
    rw [hg]
    exact runCandidates_success b vid configs 0 fs k c hk
      (by rw [Nat.zero_add]; exact hdoc)
      ((parse_trim_iff_clean c).mpr hclean)
      (fun j hj => by
        rw [Nat.zero_add, ← winsAt_iff]
        exact hprev j hj)
  · intro hall
    rw [hg]
    exact runCandidates_exhaust b vid configs 0 fs
      (fun j hj => by
        rw [Nat.zero_add, ← winsAt_iff]
        exact hall j hj)

/-- Witness for C1: with the first two downloads failing and Polish-auto
succeeding, the result is the cleaned Polish transcript and exactly three
candidates were attempted. -/
theorem C1_witness :
    (getTranscriptM "https://youtu.be/vid" demoB emptyFS).1 =
      .ok ⟨cleanTranscript (parseVTTContent demoDoc),
           some (configs.get ⟨2, by decide⟩).lang⟩ ∧
    (getTranscriptM "https://youtu.be/vid" demoB emptyFS).2.2 = configs.take 3 := by
  apply (C1_fixed_order_first_success.2 "https://youtu.be/vid" "vid" demoB emptyFS
    rfl).1 2 (by decide) demoDoc rfl (by decide)
  intro j hj
  rintro ⟨c, hc, _⟩
  interval_cases j
  · rw [show docAt demoB 0 = none from rfl] at hc
    exact Option.noConfusion hc
  · rw [show docAt demoB 1 = none from rfl] at hc
    exact Option.noConfusion hc

/-- C9 counterexample: a download invocation that fails only after writing
its artifact leaks it.  With every download failing and the last candidate
(Polish manual) leaving a file, `getTranscript` raises
`noSubtitlesAvailable` and the attempted combination's artifact
`vid.pl.vtt` is still on the filesystem. -/
theorem C9_counterexample :
    (getTranscriptM "https://youtu.be/vid" leakB emptyFS).1 =
      .error .noSubtitlesAvailable ∧
    (getTranscriptM "https://youtu.be/vid" leakB emptyFS).2.1 "vid.pl.vtt" =
      some "leftover" := by
  exact ⟨rfl, rfl⟩

/-- C9 (amended): modelling the scratch filesystem as explicit state, and
provided a failing download invocation does not create the artifact, after
`getTranscript` finishes - returning cleaned text, finding no usable
content, or erroring during download, read or parse - no scratch artifact
of any attempted video/language combination remains, on every exit path of
the candidate loop. -/
theorem C9_amended_cleanup (url vid : String) (b : Behavior) (fs : FS)
    (hurl : extractVideoIdE url = .ok vid)
    (hb : ∀ i, (b.dl i).ok = false → (b.dl i).leaves = none) :
    ∀ cfg ∈ (getTranscriptM url b fs).2.2,
      (getTranscriptM url b fs).2.1 (filename vid cfg) = none := by
  intro cfg hmem
  have hg : getTranscriptM url b fs = runCandidates b vid 0 fs configs := by
    unfold getTranscriptM
    rw [hurl]
  rw [hg] at hmem ⊢
  exact runCandidates_cleanup b vid hb configs 0 fs cfg hmem

/-- Witness for C9 (amended) at the demo behavior: the Polish-auto artifact
is gone after the run. -/
theorem C9_witness :
    (getTranscriptM "https://youtu.be/vid" demoB emptyFS).2.1
      (filename "vid" ⟨"pl", true, "Polish (auto)"⟩) = none := by
  apply C9_amended_cleanup "https://youtu.be/vid" "vid" demoB emptyFS rfl
  · intro i h
    by_cases hi : i = 2
    · subst hi
      simp [demoB] at h
    · simp [demoB, hi]
  · decide

/-- C10: whenever `getTranscript` succeeds, the optional `language` field
of the returned `TranscriptData` is present and equals the winning
candidate's language code, hence `"en"` or `"pl"`, never absent. -/
theorem C10_language_always_present (url : String) (b : Behavior) (fs : FS)
    (td : TranscriptData) (h : (getTranscriptM url b fs).1 = .ok td) :
    ∃ l, td.language = some l ∧ (l = "en" ∨ l = "pl") := by
  unfold getTranscriptM at h
  cases hurl : extractVideoIdE url with
  | error e =>
    rw [hurl] at h
    exact Except.noConfusion h
  | ok vid =>
    rw [hurl] at h
    obtain ⟨cfg, hmem, hlang⟩ := runCandidates_ok_lang b vid configs 0 fs td h
    refine ⟨cfg.lang, hlang, ?_⟩
    simp only [configs, List.mem_cons, List.not_mem_nil, or_false] at hmem
    rcases hmem with rfl | rfl | rfl | rfl
    · exact Or.inl rfl
    · exact Or.inl rfl
    · exact Or.inr rfl
    · exact Or.inr rfl

/-- Witness for C10 at the demo behavior. -/
theorem C10_witness :
    ∃ l, (⟨cleanTranscript (parseVTTContent demoDoc), some "pl"⟩ :
        TranscriptData).language = some l ∧ (l = "en" ∨ l = "pl") := by
  exact C10_language_always_present "https://youtu.be/vid" demoB emptyFS _ rfl

/-- C7: for every URL of one of the three recognised shapes - `watch?v=ID`,
`youtu.be/ID` or `embed/ID`, with or without further query parameters - the
extractor returns exactly `ID` (group 1 of the first pattern that matches);
and it raises the `invalidUrl` `YouTubeError` precisely when the input
contains neither pattern shape.  The embedding is a pure function - the
source patterns carry no `g` flag, so `test`/`exec` share no `lastIndex`
state - hence the same URL always yields the same result. -/
theorem C7_video_id_extractor :
    (∀ id post : String, id.data ≠ [] →
      (∀ c ∈ id.data, allowedIdChar c = true) →
      (∀ c ∈ post.data.take 1, allowedIdChar c = false) →
      extractVideoIdE ("https://www.youtube.com/watch?v=" ++ id ++ post) = .ok id ∧
      extractVideoIdE ("https://youtu.be/" ++ id ++ post) = .ok id ∧
      extractVideoIdE ("https://youtube.com/embed/" ++ id ++ post) = .ok id) ∧
    (∀ url : String, extractVideoIdE url = .error .invalidUrl ↔
      ¬ (P1Shape url.data ∨ P2Shape url.data)) := by
  refine ⟨?_, extractVideoIdE_error_iff⟩
  intro id post hid hall hpost
  have htake : (id.data ++ post.data).takeWhile allowedIdChar = id.data :=
    takeWhile_id_post id.data post.data hall hpost
  have hne : (id.data ++ post.data).takeWhile allowedIdChar ≠ [] := by
    rw [htake]; exact hid
  refine ⟨?_, ?_, ?_⟩
  · unfold extractVideoIdE
    have hdata : ("https://www.youtube.com/watch?v=" ++ id ++ post).data
        = "https://www.".data ++ (marker1 ++ (id.data ++ post.data)) := by
      have h1 : ("https://www.youtube.com/watch?v=" ++ id ++ post).data
          = "https://www.youtube.com/watch?v=".data ++ id.data ++ post.data := rfl
      have h2 : "https://www.youtube.com/watch?v=".data
          = "https://www.".data ++ marker1 := rfl
      rw [h1, h2]
      simp [List.append_assoc]
    rw [hdata, p1Search_skip "https://www.".data (by decide) _,
      p1Search_at_head (marker_ne_nil_append marker1 _ (by decide))
        (p1At_marker1 _ hne), htake]
  · unfold extractVideoIdE
    have hdata : ("https://youtu.be/" ++ id ++ post).data
        = "https://".data ++ (marker2 ++ (id.data ++ post.data)) := by
      have h1 : ("https://youtu.be/" ++ id ++ post).data
          = "https://youtu.be/".data ++ id.data ++ post.data := rfl
      have h2 : "https://youtu.be/".data = "https://".data ++ marker2 := rfl
      rw [h1, h2]
      simp [List.append_assoc]
    rw [hdata, p1Search_skip "https://".data (by decide) _,
      p1Search_at_head (marker_ne_nil_append marker2 _ (by decide))
        (p1At_marker2 _ hne), htake]
  · unfold extractVideoIdE
    have hdata : ("https://youtube.com/embed/" ++ id ++ post).data
        = "https://".data ++ (marker3 ++ (id.data ++ post.data)) := by
      have h1 : ("https://youtube.com/embed/" ++ id ++ post).data
          = "https://youtube.com/embed/".data ++ id.data ++ post.data := rfl
      have h2 : "https://youtube.com/embed/".data = "https://".data ++ marker3 := rfl
      rw [h1, h2]
      simp [List.append_assoc]
    rw [hdata, p1Search_skip "https://".data (by decide) _,
      p1Search_at_head (marker_ne_nil_append marker3 _ (by decide))
        (p1At_marker3 _ hne), htake]

/-- Witness for C7 at concrete URLs of all three shapes. -/
theorem C7_witness :
    extractVideoIdE ("https://www.youtube.com/watch?v=" ++ "dQw4w9WgXcQ" ++ "&t=1s")
      = .ok "dQw4w9WgXcQ" ∧
    extractVideoIdE ("https://youtu.be/" ++ "dQw4w9WgXcQ" ++ "?t=4")
      = .ok "dQw4w9WgXcQ" ∧
    extractVideoIdE ("https://youtube.com/embed/" ++ "dQw4w9WgXcQ" ++ "")
      = .ok "dQw4w9WgXcQ" := by
  refine ⟨?_, ?_, ?_⟩
  · exact (C7_video_id_extractor.1 "dQw4w9WgXcQ" "&t=1s"
      (by decide) (by decide) (by decide)).1
  · exact (C7_video_id_extractor.1 "dQw4w9WgXcQ" "?t=4"
      (by decide) (by decide) (by decide)).2.1
  · exact (C7_video_id_extractor.1 "dQw4w9WgXcQ" ""
      (by decide) (by decide) (by decide)).2.2

/-- C4 counterexample: the final deduplication pass of `parseVTTContent`
compares sentences exactly (only trimmed), not case-insensitively: on a cue
whose joined text is `"Hello. hello"` the parser keeps both `"Hello"` and
`"hello"`, while the claimed case-insensitive pass would keep only the
first. -/
theorem C4_counterexample :
    parseVTTContent "WEBVTT\n\n00:00:00.000 --> 00:00:01.000\nHello. hello\n"
      = "Hello. hello." ∧
    (⟨specCIFinalDedup "Hello. hello".data⟩ : String) = "Hello." := by
  exact ⟨by decide, by decide⟩

/-- C2 (amended): `cleanTranscript` is idempotent on every input whose
sentence-deduplicated text is a fixed point of the n-gram removal stage:
if `ngramStage (stepA s.data) = stepA s.data` then
`cleanTranscript (cleanTranscript s) = cleanTranscript s`.  (The unconditional
idempotence claimed by the spec is refuted by `C2_counterexample`.) -/
theorem C2_idempotent_on_ngram_fixed (s : String)
    (H : ngramStage (stepA s.data) = stepA s.data) :
    cleanTranscript (cleanTranscript s) = cleanTranscript s := by
  cases hys : dedupSentsGo [] (sentencesOf (trimC (normNL (normWS s.data)))) with
  | nil =>
    have hsa : stepA s.data = [] := by
      unfold stepA
      rw [hys]
      rfl
    have h0 : cleanTranscriptL s.data = [] := cleanL_of_stepA_nil s.data hsa
    show (⟨cleanTranscriptL (cleanTranscriptL s.data)⟩ : String) = ⟨cleanTranscriptL s.data⟩
    rw [h0]
    rfl
  | cons y yt =>
    have hsg : ∀ z ∈ y :: yt, SentG z := by
      intro z hz
      apply stepA_sents_good s.data z
      rw [hys]
      exact hz
    have hpw : ((y :: yt).map toLowerL).Pairwise (fun a b => a ≠ b) := by
      have hpw0 := (dedupSentsGo_keys (sentencesOf (trimC (normNL (normWS s.data)))) []).1
      rw [hys] at hpw0
      exact hpw0
    have hsa : stepA s.data = joinSep ['.', ' '] (y :: yt) := by
      unfold stepA
      rw [hys]
    have hts : trimC s.data ≠ [] := by
      intro h0
      have hall := all_ws_of_trimC_nil s.data h0
      have hnw : ∀ c ∈ normWS s.data, isWS c = true := by
        intro c hcm
        rcases normWSgo_mem s.data false c hcm with rfl | ⟨hm, hf⟩
        · decide
        · rw [hall c hm] at hf
          exact Bool.noConfusion hf
      have htn : trimC (normNL (normWS s.data)) = [] := by
        rw [normNL_id _ (newline_not_in_normWS s.data)]
        exact trimC_of_all_ws hnw
      have hnil : dedupSentsGo [] (sentencesOf (trimC (normNL (normWS s.data)))) = [] := by
        rw [htn]
        rfl
      rw [hys] at hnil
      exact List.noConfusion hnil
    have hrun1 : cleanTranscriptL s.data = joinSep ['.', ' '] (y :: yt) ++ ['.'] := by
      unfold cleanTranscriptL
      rw [if_neg hts, H, hsa, step4_join y yt hsg, step5_join y yt hsg]
    have hsa2 : stepA (joinSep ['.', ' '] (y :: yt) ++ ['.']) =
        joinSep ['.', ' '] (y :: yt) := stepA_round y yt hsg hpw
    have hts2 : trimC (joinSep ['.', ' '] (y :: yt) ++ ['.']) ≠ [] := by
      intro h0
      exact absurd (all_ws_of_trimC_nil _ h0 '.' (by simp)) (by decide)
    have hng2 : ngramStage (joinSep ['.', ' '] (y :: yt)) = joinSep ['.', ' '] (y :: yt) := by
      rw [← hsa]
      exact H
    have hrun2 : cleanTranscriptL (joinSep ['.', ' '] (y :: yt) ++ ['.']) =
        joinSep ['.', ' '] (y :: yt) ++ ['.'] := by
      unfold cleanTranscriptL
      rw [if_neg hts2, hsa2, hng2, step4_join y yt hsg, step5_join y yt hsg]
    show (⟨cleanTranscriptL (cleanTranscriptL s.data)⟩ : String) = ⟨cleanTranscriptL s.data⟩
    rw [hrun1, hrun2]

/-- Witness for the amended C2 at a concrete transcript: the n-gram stage
leaves its sentence-deduplicated text unchanged, and cleaning is idempotent
on it. -/
theorem C2_amended_witness :
    ngramStage (stepA ("Hello world. Goodbye.").data) =
      stepA ("Hello world. Goodbye.").data ∧
    cleanTranscript (cleanTranscript "Hello world. Goodbye.") =
      cleanTranscript "Hello world. Goodbye." :=
  ⟨rfl, C2_idempotent_on_ngram_fixed "Hello world. Goodbye." rfl⟩

end YT

